import Mathlib

/-!
# Verification of the markproc markdown preprocessor

Shallow embedding of `main.go` (package `main` of stevegt/markproc).
Document lines are modelled as `List Char` (Go strings are byte/rune
sequences; all patterns involved are ASCII).  Each Go function of the
pipeline — `passMkExterns`, `passMkHeads`, `passLinkExterns`,
`passLinkHeads`, `verify`, and the driver in `main` — is translated to a
Lean function of the same name.  The external fuzzy-match library
(`github.com/stevegt/fuzzy`, a separate repository; the code here only
depends on its result shape) is a function parameter, and Go map
iteration order (`keys`, `for link := range links`) is an explicit list
parameter, since Go randomises it.
-/

namespace Markproc

/-- A document line, as a character sequence (Go `string`). -/
abbrev Str := List Char

/-- Character class of Go's regexp `\s` (RE2: tab, newline, form feed,
carriage return, space). -/
def isGoSpace (c : Char) : Bool :=
  c == ' ' || c == '\t' || c == '\n' || c == '\r' || c == Char.ofNat 12

/-- Character class of Go's regexp `\w` (`[0-9A-Za-z_]`). -/
def isWordChar (c : Char) : Bool :=
  c.isAlphanum || c == '_'

/-- Character class `[\d\.]` used by `numberedHeaderRe`. -/
def isNumDot (c : Char) : Bool :=
  c.isDigit || c == '.'

/-- Scanner for Go `strings.Replace(s, old, new, -1)`; the fuel argument
(always instantiated with the string length, which bounds the number of
scan steps) makes the recursion structural so that the kernel can
evaluate it. -/
def replaceAllGo (pat rep : Str) : Nat → Str → Str
  | _, [] => []
  | 0, s => s
  | fuel + 1, c :: rest =>
    if pat ≠ [] ∧ pat.isPrefixOf (c :: rest) then
      rep ++ replaceAllGo pat rep fuel ((c :: rest).drop pat.length)
    else
      c :: replaceAllGo pat rep fuel rest

/-- Go `strings.Replace(s, old, new, -1)` for a non-empty pattern:
left-to-right, non-overlapping replacement of every occurrence. -/
def replaceAll (pat rep : Str) (s : Str) : Str :=
  replaceAllGo pat rep s.length s

/-- Go `strings.Replace(s, ".", "_", -1)`: with single-character pattern
and replacement this is a character map. -/
def replaceDotUnderscore (s : Str) : Str :=
  s.map fun c => if c = '.' then '_' else c

/-- Go `strings.TrimSuffix(s, ".")`: removes one trailing `'.'` if present. -/
def trimSuffixDot (s : Str) : Str :=
  if s.getLast? = some '.' then s.dropLast else s

/-- Go `strings.ToLower` (ASCII case folding suffices for the patterns here). -/
def toLowerStr (s : Str) : Str :=
  s.map Char.toLower

/-- Fuel-structured decimal rendering (fuel strictly exceeds the number). -/
def natDigitsGo : Nat → Nat → Str
  | 0, _ => []
  | fuel + 1, n =>
    if n < 10 then [Nat.digitChar n]
    else natDigitsGo fuel (n / 10) ++ [Nat.digitChar (n % 10)]

/-- Decimal digits of a natural number, as `fmt.Sprintf("%d", n)` renders it. -/
def natDigits (n : Nat) : Str :=
  natDigitsGo (n + 1) n

/-- Go `strings.Join(parts, sep)` for a one-character separator. -/
def joinSep (sep : Char) : List Str → Str
  | [] => []
  | [s] => s
  | s :: s' :: rest => s ++ sep :: joinSep sep (s' :: rest)

/-- Match of `headerRegexp` = `^(#+)\s+(.+)`: returns the depth (count of
leading `#`) and the heading text (group 2).  The greedy `\s+`/`.+`
boundary takes the maximal whitespace run that still leaves a non-empty
remainder for `.+`. -/
def matchHeader (line : Str) : Option (Nat × Str) :=
  let hs := line.takeWhile (· = '#')
  let rest := line.drop hs.length
  let ws := rest.takeWhile isGoSpace
  let j := min ws.length (rest.length - 1)
  if 1 ≤ hs.length ∧ 1 ≤ j then some (hs.length, rest.drop j) else none

/-- Match of `numberedHeaderRe` = `^(#+)\s+([\d\.]+)\s+(.+)`: depth,
digit-and-dot group, heading text. -/
def matchNumberedHeader (line : Str) : Option (Nat × Str × Str) :=
  let hs := line.takeWhile (· = '#')
  let r1 := line.drop hs.length
  let ws1 := r1.takeWhile isGoSpace
  let r2 := r1.drop ws1.length
  let nd := r2.takeWhile isNumDot
  let r3 := r2.drop nd.length
  let ws2 := r3.takeWhile isGoSpace
  let j := min ws2.length (r3.length - 1)
  if 1 ≤ hs.length ∧ 1 ≤ ws1.length ∧ 1 ≤ nd.length ∧ 1 ≤ j then
    some (hs.length, nd, r3.drop j)
  else none

/-- Match of `extLinkRegexp` = `^\[(\w+)\]:\s+`: the explicit-target name. -/
def matchExtLink (line : Str) : Option Str :=
  match line with
  | '[' :: rest =>
    let w := rest.takeWhile isWordChar
    match rest.drop w.length with
    | ']' :: ':' :: r2 =>
      if w ≠ [] ∧ (r2.takeWhile isGoSpace) ≠ [] then some w else none
    | _ => none
  | _ => none

/-- Fuel-structured scanner for `refRegexp` occurrences. -/
def findRefsGo : Nat → Str → List Str
  | _, [] => []
  | 0, _ :: _ => []
  | fuel + 1, c :: rest =>
    if c = '[' then
      let w := rest.takeWhile isWordChar
      match rest.drop w.length with
      | ']' :: d :: _ =>
        if w ≠ [] ∧ d ≠ ':' then
          w :: findRefsGo fuel (rest.drop (w.length + 2))
        else findRefsGo fuel rest
      | _ => findRefsGo fuel rest
    else findRefsGo fuel rest

/-- All matches of `refRegexp` = `\[(\w+)\][^:]`, in the manner of
`FindAllStringSubmatch(line, -1)`: leftmost, non-overlapping; the
character after `]` is consumed by the match and must not be `:`. -/
def findRefs (s : Str) : List Str :=
  findRefsGo s.length s

/-- Fuel-structured scanner for `sectionRefRegexp` occurrences. -/
def findSecRefsGo : Nat → Str → List Str
  | _, [] => []
  | 0, _ :: _ => []
  | fuel + 1, c :: rest =>
    if c = '[' ∧ ['s', 'e', 'c'].isPrefixOf rest then
      let t := rest.drop 3
      let u := t.takeWhile (· ≠ ']')
      let ws := t.takeWhile isGoSpace
      let j := min ws.length (u.length - 1)
      if u.length < t.length ∧ 1 ≤ j then
        u.drop j :: findSecRefsGo fuel (t.drop (u.length + 1))
      else findSecRefsGo fuel rest
    else findSecRefsGo fuel rest

/-- All matches of `sectionRefRegexp` = `\[sec\s+([^\]]+)\]`, leftmost and
non-overlapping.  The greedy `\s+`/`[^\]]+` boundary takes the maximal
whitespace run that still leaves at least one character before the `]`. -/
def findSecRefs (s : Str) : List Str :=
  findSecRefsGo s.length s

/-- The `Target` struct of `main.go`. -/
structure Target where
  name : Str
  heading : Str
  number : Str
  headingLower : Str
deriving DecidableEq

/-- Go zero value of `Target` (result of a missing map lookup). -/
def Target.zero : Target := ⟨[], [], [], []⟩

/-- Result shape of the external fuzzy matcher (`fuzzy.MatchResult`):
the candidate string and the edit-classification counts. -/
structure MatchResult where
  original : Str
  insertions : Nat
  deletions : Nat
  substitutions : Nat
deriving DecidableEq

/-- The external fuzzy matcher, abstracted: for a (query, candidate)
pair it yields (insertions, deletions, substitutions).  The core only
depends on this result shape (the library lives in a separate repo). -/
abbrev Matcher := Str → Str → Nat × Nat × Nat

/-- One entry of `fuzzy.Match`'s result list. -/
def fuzzyMatchOne (m : Matcher) (q c : Str) : MatchResult :=
  ⟨c, (m q c).1, (m q c).2.1, (m q c).2.2⟩

/-- `fuzzy.Match(query, candidates)`: one result per candidate. -/
def fuzzyMatch (m : Matcher) (q : Str) (cands : List Str) : List MatchResult :=
  cands.map (fuzzyMatchOne m q)

/-- The filter of `passLinkHeads`:
`fm.Insertions > 0 && fm.Substitutions == 0 && fm.Deletions == 0`. -/
def isAcceptable (r : MatchResult) : Bool :=
  decide (0 < r.insertions) && decide (r.substitutions = 0) && decide (r.deletions = 0)

/-- The `insertionOnly` list of `passLinkHeads` for one query: results of
the fuzzy matcher over the key enumeration, filtered to acceptable ones. -/
def acceptableResults (m : Matcher) (ord : List Str) (q : Str) : List MatchResult :=
  (fuzzyMatch m q ord).filter isAcceptable

/-- Go map insertion `m[k] = t`: overwrites the value at an existing key. -/
def insertAssoc (k : Str) (t : Target) : List (Str × Target) → List (Str × Target)
  | [] => [(k, t)]
  | (k', t') :: rest => if k' = k then (k, t) :: rest else (k', t') :: insertAssoc k t rest

/-- Go map lookup `m[k]` as an `Option`. -/
def lookupAssoc (k : Str) : List (Str × Target) → Option Target
  | [] => none
  | (k', t) :: rest => if k' = k then some t else lookupAssoc k rest

/-- Markup helpers: `<a name="x"></a>` line emitted before targets. -/
def anchorLine (a : Str) : Str :=
  "<a name=\"".data ++ a ++ "\"></a>".data

/-- Rewritten external reference: `[<a href="#r">r</a>]` replacing `[r]`. -/
def refLinkStr (r : Str) : Str :=
  "[<a href=\"#".data ++ r ++ "\">".data ++ r ++ "</a>]".data

/-- The literal `[r]` pattern handed to `strings.Replace`. -/
def refPatStr (r : Str) : Str :=
  '[' :: r ++ [']']

/-- The literal `[sec a]` pattern handed to `strings.Replace` (note: it is
reconstructed with a single space, whatever whitespace the marker had). -/
def secMarkerStr (a : Str) : Str :=
  "[sec ".data ++ a ++ [']']

/-- Rewritten section reference: `[<a href="#name">sec number</a>]`. -/
def secLinkStr (t : Target) : Str :=
  "[<a href=\"#".data ++ t.name ++ "\">sec ".data ++ t.number ++ "</a>]".data

/-! ## The four passes -/

/-- `passMkExterns`: before every explicit-target definition line, insert
its anchor line. -/
def passMkExterns (lines : List Str) : List Str :=
  lines.flatMap fun line =>
    match matchExtLink line with
    | some ref => [anchorLine ref, line]
    | none => [line]

/-- `passLinkExterns` on one line: left-to-right, each found reference is
replaced (all occurrences of its `[r]` pattern at once). -/
def linkExternLine (line : Str) : Str :=
  (findRefs line).foldl (fun l r => replaceAll (refPatStr r) (refLinkStr r) l) line

/-- `passLinkExterns`: rewrite bracketed external references on every line. -/
def passLinkExterns (lines : List Str) : List Str :=
  lines.map linkExternLine

/-! ### Section numbering (`passMkHeads`) -/

/-- The `for len(sectionNumbers) < level` extension loop: pad with zeros
to length at least `level`. -/
def extendTo (v : List Nat) (level : Nat) : List Nat :=
  v ++ List.replicate (level - v.length) 0

/-- `sectionNumbers[i]++` (index known in bounds after `extendTo`). -/
def incrementAt : List Nat → Nat → List Nat
  | [], _ => []
  | x :: xs, 0 => (x + 1) :: xs
  | x :: xs, n + 1 => x :: incrementAt xs n

/-- The reset loop `for i := level; i < len; i++ { v[i] = 0 }`. -/
def resetFrom : List Nat → Nat → List Nat
  | [], _ => []
  | _ :: xs, 0 => 0 :: resetFrom xs 0
  | x :: xs, n + 1 => x :: resetFrom xs n

/-- Counter update for one heading at depth `level`: extend, increment
the counter at index `level - 1`, reset all deeper counters. -/
def updateCounters (v : List Nat) (level : Nat) : List Nat :=
  resetFrom (incrementAt (extendTo v level) (level - 1)) level

/-- Composed section number of the current heading: counters `0..level-1`
rendered in decimal and joined by `.`. -/
def sectionNumberStr (v : List Nat) (level : Nat) : Str :=
  joinSep '.' ((v.take level).map natDigits)

/-- Anchor name derived from a section number string:
`"sec" + number with dots replaced by underscores`. -/
def anchorOfNumber (num : Str) : Str :=
  "sec".data ++ replaceDotUnderscore num

/-- The structural warning `Warning: Header level gap up: <title>`. -/
def gapWarn (title : Str) : Str :=
  "Warning: Header level gap up: ".data ++ title

/-- The rewritten heading line `<hashes> <number>. <title>`. -/
def headerLineStr (level : Nat) (num title : Str) : Str :=
  List.replicate level '#' ++ ' ' :: (num ++ '.' :: ' ' :: title)

/-- One step of `passMkHeads`: state is (counter vector, previous depth);
output is the emitted lines and any structural warning. -/
def mkHeadsStep (st : List Nat × Nat) (line : Str) : (List Nat × Nat) × List Str × List Str :=
  match matchHeader line with
  | none => (st, [line], [])
  | some (level, title) =>
    let warns := if st.2 + 1 < level then [gapWarn title] else []
    let nums := updateCounters st.1 level
    let secNum := sectionNumberStr nums level
    ((nums, level), [anchorLine (anchorOfNumber secNum), headerLineStr level secNum title], warns)

/-- Fold of `mkHeadsStep` over the document. -/
def mkHeadsGo (st : List Nat × Nat) : List Str → List Str × List Str
  | [] => ([], [])
  | l :: ls =>
    let r := mkHeadsStep st l
    let rest := mkHeadsGo r.1 ls
    (r.2.1 ++ rest.1, r.2.2 ++ rest.2)

/-- `passMkHeads`: number headings, emit anchors, collect structural
warnings.  Initial state: empty counter vector, previous depth 0. -/
def passMkHeads (lines : List Str) : List Str × List Str :=
  mkHeadsGo ([], 0) lines

/-! ### Heading-reference resolution (`passLinkHeads`) -/

/-- The target built from a numbered heading line: number with a trailing
dot trimmed, anchor name `sec<number with _>`, registry key = lower-cased
heading text. -/
def mkTargetOf (num title : Str) : Target :=
  ⟨anchorOfNumber (trimSuffixDot num), title, trimSuffixDot num, toLowerStr title⟩

/-- One line's contribution to the `sectionTargets` map. -/
def regStep (reg : List (Str × Target)) (line : Str) : List (Str × Target) :=
  match matchNumberedHeader line with
  | some (_, num, title) => insertAssoc (toLowerStr title) (mkTargetOf num title) reg
  | none => reg

/-- First loop of `passLinkHeads`: the `sectionTargets` map, keyed by
lower-cased heading text (later headings overwrite earlier ones). -/
def buildRegistry (lines : List Str) : List (Str × Target) :=
  lines.foldl regStep []

/-- Warning for a section reference with no acceptable match. -/
def noMatchWarn (a : Str) : Str :=
  "Warning: [sec ".data ++ a ++ "] no fuzzy match found".data

/-- Header line of the multiple-match warning. -/
def multiWarnHead (a : Str) : Str :=
  "Warning: [sec ".data ++ a ++ "] multiple fuzzy matches found:".data

/-- Candidate line of the multiple-match warning: two spaces, then the
candidate heading's original text. -/
def multiWarnItem (reg : List (Str × Target)) (r : MatchResult) : Str :=
  "  ".data ++ ((lookupAssoc r.original reg).getD Target.zero).heading

/-- The `switch len(insertionOnly)` of `passLinkHeads` for one section
reference: returns (possibly rewritten line, warnings, errored). -/
def processSecRef (m : Matcher) (reg : List (Str × Target)) (ord : List Str)
    (acr line : Str) : Str × List Str × Bool :=
  match acceptableResults m ord (toLowerStr acr) with
  | [] => (line, [noMatchWarn acr], true)
  | [r] =>
    let t := (lookupAssoc r.original reg).getD Target.zero
    (replaceAll (secMarkerStr acr) (secLinkStr t) line, [], false)
  | rs => (line, multiWarnHead acr :: rs.map (multiWarnItem reg), true)

/-- Sequential processing of the section references found on one line
(found once, on the original line; rewrites accumulate on the line). -/
def processSecRefs (m : Matcher) (reg : List (Str × Target)) (ord : List Str) :
    List Str → Str → Str × List Str × Bool
  | [], line => (line, [], false)
  | a :: as, line =>
    let r1 := processSecRef m reg ord a line
    let r2 := processSecRefs m reg ord as r1.1
    (r2.1, r1.2.1 ++ r2.2.1, r1.2.2 || r2.2.2)

/-- Second loop of `passLinkHeads`, for one line. -/
def linkHeadsLine (m : Matcher) (reg : List (Str × Target)) (ord : List Str)
    (line : Str) : Str × List Str × Bool :=
  processSecRefs m reg ord (findSecRefs line) line

/-- Second loop of `passLinkHeads` over all lines. -/
def linkHeadsAll (m : Matcher) (reg : List (Str × Target)) (ord : List Str) :
    List Str → List Str × List Str × Bool
  | [] => ([], [], false)
  | l :: ls =>
    let r1 := linkHeadsLine m reg ord l
    let r2 := linkHeadsAll m reg ord ls
    (r1.1 :: r2.1, r1.2.1 ++ r2.2.1, r1.2.2 || r2.2.2)

/-- `passLinkHeads`: build the registry, then resolve every
`[sec ...]` marker.  `ord` stands for `keys(sectionTargets)` — the Go map
iteration order, which Go randomises, hence a parameter. -/
def passLinkHeads (m : Matcher) (ord : List Str) (lines : List Str) :
    List Str × List Str × Bool :=
  linkHeadsAll m (buildRegistry lines) ord lines

/-! ### Verification (`verify`) -/

/-- All anchor names, in document order: first match of
`<a name="([^"]+)"></a>` on each line. -/
def findAnchorName : Str → Option Str
  | [] => none
  | c :: rest =>
    if "<a name=\"".data.isPrefixOf (c :: rest) then
      let t := (c :: rest).drop 9
      let u := t.takeWhile (· ≠ '"')
      if u ≠ [] ∧ "\"></a>".data.isPrefixOf (t.drop u.length) then some u
      else findAnchorName rest
    else findAnchorName rest

/-- First match of `<a href="#([^"]+)">` on a line. -/
def findHrefName : Str → Option Str
  | [] => none
  | c :: rest =>
    if "<a href=\"#".data.isPrefixOf (c :: rest) then
      let t := (c :: rest).drop 10
      let u := t.takeWhile (· ≠ '"')
      if u ≠ [] ∧ ['"', '>'].isPrefixOf (t.drop u.length) then some u
      else findHrefName rest
    else findHrefName rest

/-- Anchor names collected by `verify`'s first scan. -/
def anchorNames (lines : List Str) : List Str :=
  lines.filterMap findAnchorName

/-- The `duplicateChecker` scan: first name seen twice, if any. -/
def firstDup (seen : List Str) : List Str → Option Str
  | [] => none
  | a :: rest => if a ∈ seen then some a else firstDup (a :: seen) rest

/-- The `links` map of `verify` as an insertion-ordered set: hyperlink
destinations with later duplicates dropped. -/
def linkNames (lines : List Str) : List Str :=
  (lines.filterMap findHrefName).foldl (fun acc a => if a ∈ acc then acc else acc ++ [a]) []

/-- `verify`: duplicate-anchor check (first duplicate in scan order),
then dangling-link check over the link set in map-iteration order
`ordV` (randomised by Go, hence a parameter).  Returns the error
message, or `none`. -/
def verify (lines : List Str) (ordV : List Str) : Option Str :=
  match firstDup [] (anchorNames lines) with
  | some a => some ("Duplicate target found: #".data ++ a)
  | none =>
    match ordV.find? (fun l => decide (l ∉ anchorNames lines)) with
    | some l => some ("Link points to an undefined target: #".data ++ l)
    | none => none

/-- The driver of `main` after input is read: the four passes in order,
then verification.  Returns the emitted document lines (always the full
transformed sequence), the diagnostics, and the errored flag (`exitCode
!= 0`). -/
def runPipeline (m : Matcher) (ord ordV : List Str) (lines : List Str) :
    List Str × List Str × Bool :=
  let l1 := passMkExterns lines
  let r2 := passMkHeads l1
  let l3 := passLinkExterns r2.1
  let r4 := passLinkHeads m ord l3
  let verr := verify r4.1 ordV
  (r4.1, r2.2 ++ r4.2.1 ++ verr.toList, r4.2.2 || verr.isSome)

/-! ## Numbering machine viewed over depth sequences -/

/-- Valid outline check: starting from previous depth `p`, each heading
depth is at least 1 and exceeds the previous depth by at most one
(arbitrary resets to shallower depths allowed). -/
def validOutlineB : Nat → List Nat → Bool
  | _, [] => true
  | p, d :: ds => decide (1 ≤ d) && decide (d ≤ p + 1) && validOutlineB d ds

/-- Composed section numbers (as part vectors `counters[0..d-1]`) issued
by the numbering engine along a depth sequence. -/
def numbersFrom (v : List Nat) : List Nat → List (List Nat)
  | [] => []
  | d :: ds => (updateCounters v d).take d :: numbersFrom (updateCounters v d) ds

/-- Counter vectors after each heading along a depth sequence. -/
def countersFrom (v : List Nat) : List Nat → List (List Nat)
  | [] => []
  | d :: ds => updateCounters v d :: countersFrom (updateCounters v d) ds

/-- Strict parts-wise lexicographic order on section numbers (a proper
prefix precedes its extensions). -/
def lexLt : List Nat → List Nat → Bool
  | [], [] => false
  | [], _ :: _ => true
  | _ :: _, [] => false
  | a :: as, b :: bs => decide (a < b) || (decide (a = b) && lexLt as bs)

/-- Anchor name derived from a section number given as its part vector. -/
def anchorOfParts (parts : List Nat) : Str :=
  anchorOfNumber (joinSep '.' (parts.map natDigits))

/-- State invariant of the numbering engine after a heading at depth
`p`: counters below `p` are positive, counters from `p` on are zero. -/
def CounterInv (v : List Nat) (p : Nat) : Prop :=
  p ≤ v.length ∧ (∀ i, i < p → 1 ≤ v.getD i 0) ∧ (∀ i, p ≤ i → v.getD i 0 = 0)

/-- Decimal evaluation, the left inverse of `natDigits`. -/
def unDigits (s : Str) : Nat :=
  s.foldl (fun acc c => acc * 10 + (c.toNat - 48)) 0

/-! ## Theorems -/

/-! ### Fuel irrelevance for the scanners -/

theorem natDigitsGo_congr : ∀ f1 n : Nat, n < f1 → ∀ f2 : Nat, n < f2 →
    natDigitsGo f1 n = natDigitsGo f2 n := by
  intro f1
  induction f1 with
  | zero => intro n h; omega
  | succ f ih =>
    intro n h1 f2 h2
    cases f2 with
    | zero => omega
    | succ f2' =>
      simp only [natDigitsGo]
      by_cases h10 : n < 10
      · simp [h10]
      · have hlt : n / 10 < n := Nat.div_lt_self (by omega) (by omega)
        simp [h10, ih (n / 10) (by omega) f2' (by omega)]

/-- Recursion equation of `natDigits`. -/
theorem natDigits_eq (n : Nat) :
    natDigits n
      = if n < 10 then [Nat.digitChar n]
        else natDigits (n / 10) ++ [Nat.digitChar (n % 10)] := by
  show natDigitsGo (n + 1) n = _
  simp only [natDigitsGo]
  by_cases h10 : n < 10
  · simp [h10]
  · have hlt : n / 10 < n := Nat.div_lt_self (by omega) (by omega)
    simp only [if_neg h10]
    congr 1
    exact natDigitsGo_congr n (n / 10) (by omega) (n / 10 + 1) (by omega)

theorem replaceAllGo_congr (pat rep : Str) : ∀ f1 : Nat, ∀ s : Str, s.length ≤ f1 →
    ∀ f2 : Nat, s.length ≤ f2 → replaceAllGo pat rep f1 s = replaceAllGo pat rep f2 s := by
  intro f1
  induction f1 with
  | zero =>
    intro s hs f2 h2
    cases s with
    | nil => cases f2 <;> rfl
    | cons c rest => simp at hs
  | succ f ih =>
    intro s hs f2 h2
    cases s with
    | nil => cases f2 <;> rfl
    | cons c rest =>
      cases f2 with
      | zero => simp at h2
      | succ f2' =>
        have hr : rest.length ≤ f := by simp at hs; omega
        have hr2 : rest.length ≤ f2' := by simp at h2; omega
        have hcall : ∀ X : Str, X.length ≤ rest.length →
            replaceAllGo pat rep f X = replaceAllGo pat rep f2' X :=
          fun X hX => ih X (le_trans hX hr) f2' (le_trans hX hr2)
        simp only [replaceAllGo]
        by_cases hp : pat ≠ [] ∧ pat.isPrefixOf (c :: rest)
        · have hlen : 1 ≤ pat.length := by
            cases pat with
            | nil => exact absurd rfl hp.1
            | cons a l => simp
          rw [if_pos hp, if_pos hp,
            hcall ((c :: rest).drop pat.length) (by simp only [List.length_drop]; simp; omega)]
        · rw [if_neg hp, if_neg hp, hcall rest le_rfl]

/-- Recursion equations of `replaceAll`. -/
theorem replaceAll_nil (pat rep : Str) : replaceAll pat rep [] = [] := rfl

theorem replaceAll_cons (pat rep : Str) (c : Char) (rest : Str) :
    replaceAll pat rep (c :: rest)
      = if pat ≠ [] ∧ pat.isPrefixOf (c :: rest) then
          rep ++ replaceAll pat rep ((c :: rest).drop pat.length)
        else
          c :: replaceAll pat rep rest := by
  show replaceAllGo pat rep (rest.length + 1) (c :: rest) = _
  simp only [replaceAllGo]
  by_cases hp : pat ≠ [] ∧ pat.isPrefixOf (c :: rest)
  · have hlen : 1 ≤ pat.length := by
      cases pat with
      | nil => exact absurd rfl hp.1
      | cons a l => simp
    rw [if_pos hp, if_pos hp]
    congr 1
    exact replaceAllGo_congr pat rep rest.length ((c :: rest).drop pat.length)
      (by simp only [List.length_drop]; simp; omega) _ le_rfl
  · rw [if_neg hp, if_neg hp]
    rfl

theorem findRefsGo_congr : ∀ f1 : Nat, ∀ s : Str, s.length ≤ f1 →
    ∀ f2 : Nat, s.length ≤ f2 → findRefsGo f1 s = findRefsGo f2 s := by
  intro f1
  induction f1 with
  | zero =>
    intro s hs f2 h2
    cases s with
    | nil => cases f2 <;> rfl
    | cons c rest => simp at hs
  | succ f ih =>
    intro s hs f2 h2
    cases s with
    | nil => cases f2 <;> rfl
    | cons c rest =>
      cases f2 with
      | zero => simp at h2
      | succ f2' =>
        have hr : rest.length ≤ f := by simp at hs; omega
        have hr2 : rest.length ≤ f2' := by simp at h2; omega
        have hcall : ∀ X : Str, X.length ≤ rest.length →
            findRefsGo f X = findRefsGo f2' X :=
          fun X hX => ih X (le_trans hX hr) f2' (le_trans hX hr2)
        simp only [findRefsGo]
        rw [hcall rest le_rfl,
          hcall (rest.drop ((rest.takeWhile isWordChar).length + 2)) (by simp)]

/-- Recursion equations of `findRefs`. -/
theorem findRefs_nil : findRefs [] = [] := rfl

theorem findRefs_cons (c : Char) (rest : Str) :
    findRefs (c :: rest)
      = if c = '[' then
          match rest.drop ((rest.takeWhile isWordChar).length) with
          | ']' :: d :: _ =>
            if rest.takeWhile isWordChar ≠ [] ∧ d ≠ ':' then
              (rest.takeWhile isWordChar) :: findRefs (rest.drop ((rest.takeWhile isWordChar).length + 2))
            else findRefs rest
          | _ => findRefs rest
        else findRefs rest := by
  show findRefsGo (rest.length + 1) (c :: rest) = _
  simp only [findRefsGo]
  rw [findRefsGo_congr rest.length rest le_rfl rest.length le_rfl]
  rw [findRefsGo_congr rest.length (rest.drop ((rest.takeWhile isWordChar).length + 2))
    (by simp) (rest.drop ((rest.takeWhile isWordChar).length + 2)).length le_rfl]
  rfl

/-- Unfolding of the acceptable-match test. -/
theorem isAcceptable_iff (r : MatchResult) :
    isAcceptable r = true ↔ 0 < r.insertions ∧ r.deletions = 0 ∧ r.substitutions = 0 := by
  simp [isAcceptable]
  tauto

/-- C2: a fuzzy-match result is classified as an acceptable match iff its
insertion count is strictly positive and its deletion and substitution
counts are both zero; any result with deletions or substitutions, and
any result with zero insertions, is never kept by the `insertionOnly`
filter of `passLinkHeads`. -/
theorem C2_acceptable_match_iff (m : Matcher) (q : Str) (ord : List Str) (r : MatchResult) :
    (r ∈ acceptableResults m ord q ↔
      r ∈ fuzzyMatch m q ord ∧ (0 < r.insertions ∧ r.deletions = 0 ∧ r.substitutions = 0))
    ∧ (r.deletions ≠ 0 ∨ r.substitutions ≠ 0 → r ∉ acceptableResults m ord q)
    ∧ (r.insertions = 0 → r ∉ acceptableResults m ord q) := by
  have hmem : r ∈ acceptableResults m ord q ↔
      r ∈ fuzzyMatch m q ord ∧ isAcceptable r = true := List.mem_filter
  refine ⟨?_, ?_, ?_⟩
  · rw [hmem, isAcceptable_iff]
  · intro hds hr
    rcases (hmem.mp hr).2 |> (isAcceptable_iff r).mp with ⟨_, hd, hs⟩
    rcases hds with h | h
    · exact h hd
    · exact h hs
  · intro hi hr
    rcases (hmem.mp hr).2 |> (isAcceptable_iff r).mp with ⟨hpos, _, _⟩
    omega

/-- Witness for C2 at concrete inputs: a deletion-bearing result is
rejected, and zero insertions is rejected. -/
theorem C2_acceptable_match_iff_witness :
    ((⟨['b'], 2, 1, 0⟩ : MatchResult).deletions ≠ 0 ∨
      (⟨['b'], 2, 1, 0⟩ : MatchResult).substitutions ≠ 0)
    ∧ (⟨['b'], 2, 1, 0⟩ : MatchResult) ∉
        acceptableResults (fun _ c => (c.length, 1, 0)) [['b']] ['q'] :=
  ⟨Or.inl (by decide),
   (C2_acceptable_match_iff (fun _ c => (c.length, 1, 0)) ['q'] [['b']]
      ⟨['b'], 2, 1, 0⟩).2.1 (Or.inl (by decide))⟩

/-- C1: the resolution policy of the Heading-Reference Resolver, for a
line containing one `[sec abbreviation]` marker.  The abbreviation is
case-folded (`toLowerStr acr`) and matched against the candidate keys
`ord` (the registry's case-folded heading texts).  Exactly one
acceptable match: the marker is replaced by a hyperlink with visible
text `sec <number>` and destination `#<anchorName>` (see `secLinkStr`),
no warning, not errored.  Zero matches: warning naming the
abbreviation, line unrewritten, errored.  Two or more: warning listing
every candidate heading's original text, line unrewritten, errored —
no tie is ever picked. -/
theorem C1_heading_reference_resolution (m : Matcher) (reg : List (Str × Target))
    (ord : List Str) (acr line : Str) (hfind : findSecRefs line = [acr]) :
    (∀ r, acceptableResults m ord (toLowerStr acr) = [r] →
      linkHeadsLine m reg ord line
        = (replaceAll (secMarkerStr acr)
            (secLinkStr ((lookupAssoc r.original reg).getD Target.zero)) line, [], false))
    ∧ (acceptableResults m ord (toLowerStr acr) = [] →
      linkHeadsLine m reg ord line = (line, [noMatchWarn acr], true))
    ∧ (∀ r1 r2 rs, acceptableResults m ord (toLowerStr acr) = r1 :: r2 :: rs →
      linkHeadsLine m reg ord line
        = (line, multiWarnHead acr :: (r1 :: r2 :: rs).map (multiWarnItem reg), true)) := by
  refine ⟨?_, ?_, ?_⟩
  · intro r hone
    simp [linkHeadsLine, hfind, processSecRefs, processSecRef, hone]
  · intro hzero
    simp [linkHeadsLine, hfind, processSecRefs, processSecRef, hzero]
  · intro r1 r2 rs hmany
    simp [linkHeadsLine, hfind, processSecRefs, processSecRef, hmany]

/-- Witness for C1 at a concrete document: one heading, an abbreviation
with exactly one acceptable match, rewritten to `sec 2.3` /
`#sec2_3`. -/
theorem C1_heading_reference_resolution_witness :
    linkHeadsLine (fun _ c => (c.length, 0, 0))
        (buildRegistry ["## 2.3. Fun Object Overtone".data])
        ["fun object overtone".data] "x [sec foo] y".data
      = ("x [<a href=\"#sec2_3\">sec 2.3</a>] y".data, [], false) := by
  have h := (C1_heading_reference_resolution (fun _ c => (c.length, 0, 0))
      (buildRegistry ["## 2.3. Fun Object Overtone".data])
      ["fun object overtone".data] "foo".data "x [sec foo] y".data (by decide)).1
      ⟨"fun object overtone".data, 19, 0, 0⟩ (by decide)
  rw [h]
  decide

/-! ### Registry lemmas (for C10) -/

theorem lookupAssoc_insertAssoc_self (k : Str) (t : Target) (reg : List (Str × Target)) :
    lookupAssoc k (insertAssoc k t reg) = some t := by
  induction reg with
  | nil => simp [insertAssoc, lookupAssoc]
  | cons p rest ih =>
    obtain ⟨k', t'⟩ := p
    by_cases h : k' = k
    · simp [insertAssoc, h, lookupAssoc]
    · simp [insertAssoc, h, lookupAssoc, ih]

theorem lookupAssoc_insertAssoc_ne (k k' : Str) (hne : k' ≠ k) (t : Target)
    (reg : List (Str × Target)) :
    lookupAssoc k (insertAssoc k' t reg) = lookupAssoc k reg := by
  induction reg with
  | nil => simp [insertAssoc, lookupAssoc, hne]
  | cons p rest ih =>
    obtain ⟨k'', t''⟩ := p
    by_cases h : k'' = k'
    · subst h
      simp [insertAssoc, lookupAssoc, hne]
    · simp only [insertAssoc, if_neg h, lookupAssoc]
      by_cases h2 : k'' = k
      · simp [h2]
      · simp [h2, ih]

theorem lookupAssoc_regStep_ne (reg : List (Str × Target)) (line : Str) (k : Str)
    (h : ∀ lv n t, matchNumberedHeader line = some (lv, n, t) → toLowerStr t ≠ k) :
    lookupAssoc k (regStep reg line) = lookupAssoc k reg := by
  unfold regStep
  cases hm : matchNumberedHeader line with
  | none => rfl
  | some x =>
    obtain ⟨lv, n, t⟩ := x
    exact lookupAssoc_insertAssoc_ne _ _ (h lv n t hm) _ _

theorem lookupAssoc_foldl_regStep (post : List Str) (reg : List (Str × Target)) (k : Str)
    (h : ∀ l ∈ post, ∀ lv n t, matchNumberedHeader l = some (lv, n, t) → toLowerStr t ≠ k) :
    lookupAssoc k (post.foldl regStep reg) = lookupAssoc k reg := by
  induction post generalizing reg with
  | nil => rfl
  | cons l rest ih =>
    simp only [List.foldl_cons]
    rw [ih _ (fun l' hl' => h l' (List.mem_cons_of_mem _ hl')),
      lookupAssoc_regStep_ne _ _ _ (h l (List.mem_cons_self _ _))]

/-- C10: when two or more numbered headings share the same case-folded
text, the registry entry for that key is the target of the LAST such
heading in document order, and a uniquely-resolving abbreviation for
that key is rewritten to that last heading's anchor and number — the
earlier headings can never be the destination of a resolved section
reference. -/
theorem C10_last_duplicate_heading_wins (m : Matcher) (ord : List Str)
    (pre mid post : List Str) (h1 h2 : Str)
    (lv1 : Nat) (n1 t1 : Str) (lv2 : Nat) (n2 t2 : Str)
    (_hm1 : matchNumberedHeader h1 = some (lv1, n1, t1))
    (hm2 : matchNumberedHeader h2 = some (lv2, n2, t2))
    (_heq : toLowerStr t1 = toLowerStr t2)
    (hpost : ∀ l ∈ post, ∀ lv n t, matchNumberedHeader l = some (lv, n, t) →
      toLowerStr t ≠ toLowerStr t2) :
    lookupAssoc (toLowerStr t2) (buildRegistry (pre ++ h1 :: mid ++ h2 :: post))
      = some (mkTargetOf n2 t2)
    ∧ ∀ acr line r,
        acceptableResults m ord (toLowerStr acr) = [r] →
        r.original = toLowerStr t2 →
        processSecRef m (buildRegistry (pre ++ h1 :: mid ++ h2 :: post)) ord acr line
          = (replaceAll (secMarkerStr acr) (secLinkStr (mkTargetOf n2 t2)) line, [], false) := by
  have hlook : lookupAssoc (toLowerStr t2) (buildRegistry (pre ++ h1 :: mid ++ h2 :: post))
      = some (mkTargetOf n2 t2) := by
    unfold buildRegistry
    rw [List.foldl_append, List.foldl_cons, List.foldl_append, List.foldl_cons]
    rw [lookupAssoc_foldl_regStep post _ _ hpost]
    unfold regStep
    rw [hm2]
    exact lookupAssoc_insertAssoc_self _ _ _
  refine ⟨hlook, ?_⟩
  intro acr line r hone horig
  set R := buildRegistry (pre ++ h1 :: mid ++ h2 :: post) with hR
  simp [processSecRef, hone, horig, hlook]

/-- Witness for C10: two headings both case-folding to `"dup title"`;
the registry resolves to the second one (`sec2`, number `2`), and the
resolution rewrite uses it. -/
theorem C10_last_duplicate_heading_wins_witness :
    lookupAssoc "dup title".data
        (buildRegistry (["x".data] ++ "# 1. Dup Title".data :: ["y".data] ++
          "# 2. DUP TITLE".data :: ["z".data]))
      = some (mkTargetOf "2.".data "DUP TITLE".data)
    ∧ processSecRef (fun _ c => (c.length, 0, 0))
        (buildRegistry (["x".data] ++ "# 1. Dup Title".data :: ["y".data] ++
          "# 2. DUP TITLE".data :: ["z".data]))
        ["dup title".data] "dt".data "a [sec dt] b".data
      = (replaceAll (secMarkerStr "dt".data)
          (secLinkStr (mkTargetOf "2.".data "DUP TITLE".data)) "a [sec dt] b".data, [], false) := by
  have h := C10_last_duplicate_heading_wins (fun _ c => (c.length, 0, 0))
    ["dup title".data] ["x".data] ["y".data] ["z".data]
    "# 1. Dup Title".data "# 2. DUP TITLE".data
    1 "1.".data "Dup Title".data 1 "2.".data "DUP TITLE".data
    (by decide) (by decide) (by decide)
    (by
      intro l hl lv n t hm
      simp only [List.mem_singleton] at hl
      subst hl
      rw [(by decide : matchNumberedHeader "z".data = none)] at hm
      cases hm)
  exact ⟨h.1, h.2 "dt".data "a [sec dt] b".data ⟨"dup title".data, 9, 0, 0⟩ (by decide) (by decide)⟩

/-! ### Counter-machine closed forms (for C4, C5, C9) -/

theorem incrementAt_eq (w : List Nat) : ∀ j, j < w.length →
    incrementAt w j = w.take j ++ (w.getD j 0 + 1) :: w.drop (j + 1) := by
  induction w with
  | nil => intro j h; simp at h
  | cons x xs ih =>
    intro j h
    cases j with
    | zero => simp [incrementAt]
    | succ n =>
      simp only [incrementAt, List.take_succ_cons, List.drop_succ_cons, List.getD_cons_succ,
        List.cons_append]
      rw [ih n (by simpa using h)]

theorem resetFrom_eq (w : List Nat) : ∀ n, resetFrom w n = w.take n ++ List.replicate (w.length - n) 0 := by
  induction w with
  | nil => intro n; simp [resetFrom]
  | cons x xs ih =>
    intro n
    cases n with
    | zero => simp [resetFrom, ih 0, List.replicate_succ]
    | succ k => simp [resetFrom, ih k]

theorem length_extendTo (v : List Nat) (level : Nat) :
    (extendTo v level).length = max v.length level := by
  simp [extendTo]; omega

theorem getD_zero_replicate : ∀ k i : Nat, (List.replicate k (0 : Nat)).getD i 0 = 0 := by
  intro k
  induction k with
  | zero => intro i; simp
  | succ n ih =>
    intro i
    cases i with
    | zero => simp [List.replicate_succ]
    | succ j => simp [List.replicate_succ, ih j]

theorem getD_extendTo (v : List Nat) (level i : Nat) :
    (extendTo v level).getD i 0 = v.getD i 0 := by
  unfold extendTo
  rcases lt_or_ge i v.length with h | h
  · rw [List.getD_append _ _ _ _ h]
  · rw [List.getD_append_right _ _ _ _ h, List.getD_eq_default _ _ h, getD_zero_replicate]

theorem updateCounters_eq (v : List Nat) (level : Nat) (h : 1 ≤ level) :
    updateCounters v level
      = v.take (level - 1) ++ List.replicate (level - 1 - v.length) 0
        ++ (v.getD (level - 1) 0 + 1) :: List.replicate (v.length - level) 0 := by
  unfold updateCounters
  have hwlen : (extendTo v level).length = max v.length level := length_extendTo v level
  have hlt : level - 1 < (extendTo v level).length := by omega
  rw [incrementAt_eq _ _ hlt, resetFrom_eq]
  have hAlen : ((extendTo v level).take (level - 1)).length = level - 1 := by
    rw [List.length_take]
    omega
  have hlen : ((extendTo v level).take (level - 1)
      ++ ((extendTo v level).getD (level - 1) 0 + 1) :: (extendTo v level).drop (level - 1 + 1)).length
      = (extendTo v level).length := by
    simp only [List.length_append, List.length_cons, List.length_drop, hAlen]
    omega
  rw [hlen, List.take_append_eq_append_take, hAlen,
    List.take_of_length_le (le_of_eq_of_le hAlen (by omega)),
    (show level - (level - 1) = 1 by omega)]
  have htk : (extendTo v level).take (level - 1)
      = v.take (level - 1) ++ List.replicate (level - 1 - v.length) 0 := by
    unfold extendTo
    rw [List.take_append_eq_append_take, List.take_replicate,
      (show min (level - 1 - v.length) (level - v.length) = level - 1 - v.length by omega)]
  have hg : (extendTo v level).getD (level - 1) 0 = v.getD (level - 1) 0 := getD_extendTo v level _
  have hcount : (extendTo v level).length - level = v.length - level := by omega
  rw [htk, hg, hcount]
  simp [List.append_assoc]

theorem updateCounters_take (v : List Nat) (level : Nat) (h : 1 ≤ level) :
    (updateCounters v level).take level
      = v.take (level - 1) ++ List.replicate (level - 1 - v.length) 0
        ++ [v.getD (level - 1) 0 + 1] := by
  rw [updateCounters_eq v level h]
  have hAlen : (v.take (level - 1) ++ List.replicate (level - 1 - v.length) 0).length = level - 1 := by
    simp only [List.length_append, List.length_take, List.length_replicate]
    omega
  rw [List.take_append_eq_append_take, hAlen,
    List.take_of_length_le (le_of_eq_of_le hAlen (by omega)),
    (show level - (level - 1) = 1 by omega)]
  simp [List.append_assoc]

/-- Tail of a counter vector whose entries from index `p` on are zero. -/
theorem drop_eq_replicate_of_zeros (v : List Nat) (p : Nat) (hlen : p ≤ v.length)
    (hz : ∀ i, p ≤ i → v.getD i 0 = 0) :
    v.drop p = List.replicate (v.length - p) 0 := by
  have hall : ∀ x ∈ v.drop p, x = 0 := by
    intro x hx
    rw [List.mem_iff_getElem] at hx
    obtain ⟨i, hi, hx⟩ := hx
    have := hz (p + i) (by omega)
    rw [List.getD_eq_getElem _ _ (by rw [List.length_drop] at hi; omega)] at this
    rw [← hx, List.getElem_drop]
    exact this
  have := List.eq_replicate_of_mem hall
  rw [this, List.length_drop]

/-- Under the gap hypothesis, the composed prefix collapses to the
surviving counters followed by zero parts. -/
theorem take_gap_eq (v : List Nat) (p level : Nat) (hlen : p ≤ v.length)
    (hgap : p + 1 < level) (hz : ∀ i, p ≤ i → v.getD i 0 = 0) :
    v.take (level - 1) ++ List.replicate (level - 1 - v.length) 0
      = v.take p ++ List.replicate (level - 1 - p) 0 := by
  have hsplit : v.take (level - 1) = v.take p ++ (v.drop p).take (level - 1 - p) := by
    have heq : level - 1 = p + (level - 1 - p) := by omega
    conv_lhs => rw [heq]
    rw [List.take_add]
  rw [hsplit, drop_eq_replicate_of_zeros v p hlen hz, List.take_replicate, List.append_assoc,
    ← List.replicate_add]
  congr 2
  omega

/-! ### Lexicographic order lemmas and the counter invariant (C5, C9) -/

theorem lexLt_append_cons (a : List Nat) (x : Nat) (u : List Nat) :
    lexLt a (a ++ x :: u) = true := by
  induction a with
  | nil => rfl
  | cons y ys ih => simp [lexLt, ih]

theorem lexLt_append_lt (a : List Nat) (x y : Nat) (u w : List Nat) (h : x < y) :
    lexLt (a ++ x :: u) (a ++ y :: w) = true := by
  induction a with
  | nil => simp [lexLt, h]
  | cons z zs ih => simp [lexLt, ih]

theorem lexLt_trans (a : List Nat) : ∀ b c : List Nat,
    lexLt a b = true → lexLt b c = true → lexLt a c = true := by
  induction a with
  | nil =>
    intro b c h1 h2
    cases b with
    | nil => simp [lexLt] at h1
    | cons y ys =>
      cases c with
      | nil => simp [lexLt] at h2
      | cons z zs => rfl
  | cons x xs ih =>
    intro b c h1 h2
    cases b with
    | nil => simp [lexLt] at h1
    | cons y ys =>
      cases c with
      | nil => simp [lexLt] at h2
      | cons z zs =>
        simp only [lexLt, Bool.or_eq_true, Bool.and_eq_true, decide_eq_true_eq] at h1 h2 ⊢
        rcases h1 with h1 | ⟨hxy, h1⟩
        · rcases h2 with h2 | ⟨hyz, h2⟩
          · exact Or.inl (by omega)
          · exact Or.inl (by omega)
        · rcases h2 with h2 | ⟨hyz, h2⟩
          · exact Or.inl (by omega)
          · exact Or.inr ⟨by omega, ih ys zs h1 h2⟩

theorem lexLt_irrefl : ∀ a : List Nat, lexLt a a = false := by
  intro a
  induction a with
  | nil => rfl
  | cons x xs ih => simp [lexLt, ih]

theorem lexLt_ne (a b : List Nat) (h : lexLt a b = true) : a ≠ b := by
  intro hab
  subst hab
  rw [lexLt_irrefl] at h
  cases h

theorem getD_take (v : List Nat) (n i : Nat) (h : i < n) :
    (v.take n).getD i 0 = v.getD i 0 := by
  rcases lt_or_ge i v.length with hv | hv
  · rw [List.getD_eq_getElem _ _ (by rw [List.length_take]; omega),
      List.getD_eq_getElem _ _ hv]
    exact List.getElem_take _
  · rw [List.getD_eq_default _ _ (by rw [List.length_take]; omega),
      List.getD_eq_default _ _ hv]

theorem resetFrom_getD_ge (w : List Nat) (d i : Nat) (h : d ≤ i) :
    (resetFrom w d).getD i 0 = 0 := by
  rw [resetFrom_eq]
  rcases lt_or_ge i (w.take d).length with ht | ht
  · rw [List.length_take] at ht
    omega
  · rw [List.getD_append_right _ _ _ _ ht, getD_zero_replicate]

theorem updateCounters_getD_ge (v : List Nat) (d i : Nat) (h : d ≤ i) :
    (updateCounters v d).getD i 0 = 0 :=
  resetFrom_getD_ge _ d i h

theorem counterInv_init : CounterInv [] 0 :=
  ⟨le_refl 0, fun i h => absurd h (by omega), fun i _ => by cases i <;> rfl⟩

theorem counterInv_step (v : List Nat) (p d : Nat) (hInv : CounterInv v p)
    (hd1 : 1 ≤ d) (hd2 : d ≤ p + 1) :
    CounterInv (updateCounters v d) d
    ∧ lexLt (v.take p) ((updateCounters v d).take d) = true := by
  obtain ⟨hplen, hpos, hzero⟩ := hInv
  have hd1v : d - 1 ≤ v.length := by omega
  have hrepl : d - 1 - v.length = 0 := by omega
  have heq : updateCounters v d
      = v.take (d - 1) ++ (v.getD (d - 1) 0 + 1) :: List.replicate (v.length - d) 0 := by
    rw [updateCounters_eq v d hd1, hrepl]
    simp
  have htk : (updateCounters v d).take d
      = v.take (d - 1) ++ [v.getD (d - 1) 0 + 1] := by
    rw [updateCounters_take v d hd1, hrepl]
    simp
  have htklen : (v.take (d - 1)).length = d - 1 := by
    rw [List.length_take]
    omega
  refine ⟨⟨?_, ?_, ?_⟩, ?_⟩
  · rw [heq, List.length_append, htklen, List.length_cons, List.length_replicate]
    omega
  · intro i hi
    rw [heq]
    rcases lt_or_ge i (d - 1) with h | h
    · rw [List.getD_append _ _ _ _ (by omega), getD_take v _ i h]
      exact hpos i (by omega)
    · have hieq : i = d - 1 := by omega
      subst hieq
      rw [List.getD_append_right _ _ _ _ (by omega), htklen]
      simp
  · intro i hi
    exact updateCounters_getD_ge v d i hi
  · rw [htk]
    rcases Nat.lt_or_ge (d - 1) p with hlt | hge
    · -- d ≤ p : the shared prefix is v.take (d - 1), old has getD, new has getD + 1
      have hdrop : v.drop (d - 1) = v.getD (d - 1) 0 :: v.drop d := by
        rw [List.getD_eq_getElem _ _ (by omega : d - 1 < v.length),
          List.drop_eq_getElem_cons (by omega : d - 1 < v.length),
          (by omega : d - 1 + 1 = d)]
      have hsplit : v.take p
          = v.take (d - 1) ++ v.getD (d - 1) 0 :: (v.drop d).take (p - d) := by
        have hadd : p = (d - 1) + (p - d + 1) := by omega
        conv_lhs => rw [hadd, List.take_add, hdrop]
        rw [(by omega : p - d + 1 = (p - d) + 1), List.take_succ_cons]
      rw [hsplit]
      exact lexLt_append_lt _ _ _ _ _ (by omega)
    · -- d = p + 1 : the new number extends the old one by one part
      have hdp : d - 1 = p := by omega
      rw [hdp]
      exact lexLt_append_cons _ _ _

theorem numbers_chain (ds : List Nat) : ∀ v p, CounterInv v p → validOutlineB p ds = true →
    List.Chain' (fun a b => lexLt a b = true) (v.take p :: numbersFrom v ds) := by
  induction ds with
  | nil => intro v p _ _; simp [numbersFrom]
  | cons d ds ih =>
    intro v p hInv hval
    simp only [validOutlineB, Bool.and_eq_true, decide_eq_true_eq] at hval
    obtain ⟨⟨hd1, hd2⟩, hrest⟩ := hval
    have hstep := counterInv_step v p d hInv hd1 hd2
    simp only [numbersFrom]
    rw [List.chain'_cons]
    exact ⟨hstep.2, ih (updateCounters v d) d hstep.1 hrest⟩

theorem numbers_pairwise (ds : List Nat) (hval : validOutlineB 0 ds = true) :
    List.Pairwise (fun a b => lexLt a b = true) (numbersFrom [] ds) := by
  have hchain := numbers_chain ds [] 0 counterInv_init hval
  have htail : List.Chain' (fun a b => lexLt a b = true) (numbersFrom [] ds) :=
    hchain.tail
  have htrans : IsTrans (List Nat) (fun a b => lexLt a b = true) :=
    ⟨fun a b c => lexLt_trans a b c⟩
  exact List.chain'_iff_pairwise.mp htail

theorem countersFrom_zero (ds : List Nat) : ∀ v, ∀ pr ∈ ds.zip (countersFrom v ds),
    ∀ i, pr.1 ≤ i → pr.2.getD i 0 = 0 := by
  induction ds with
  | nil => intro v pr h; simp [countersFrom] at h
  | cons d ds ih =>
    intro v pr hpr i hi
    simp only [countersFrom, List.zip_cons_cons, List.mem_cons] at hpr
    rcases hpr with rfl | hpr
    · exact updateCounters_getD_ge v d i hi
    · exact ih _ pr hpr i hi

/-- C5: over a valid outline (each heading depth at least 1 and at most
one deeper than its predecessor, arbitrary resets allowed, starting
from depth 0), the sequence of composed section numbers is strictly
increasing in parts-wise lexicographic order, and after each heading
every counter at an index at or beyond that heading's depth (i.e. at
any strictly deeper level) is zero. -/
theorem C5_numbering_monotone (ds : List Nat) (hval : validOutlineB 0 ds = true) :
    List.Pairwise (fun a b => lexLt a b = true) (numbersFrom [] ds)
    ∧ ∀ pr ∈ ds.zip (countersFrom [] ds), ∀ i, pr.1 ≤ i → pr.2.getD i 0 = 0 :=
  ⟨numbers_pairwise ds hval, countersFrom_zero ds []⟩

/-- Witness for C5 on the outline 1, 2, 2, 1, 2. -/
theorem C5_numbering_monotone_witness :
    List.Pairwise (fun a b => lexLt a b = true) (numbersFrom [] [1, 2, 2, 1, 2])
    ∧ ∀ pr ∈ [1, 2, 2, 1, 2].zip (countersFrom [] [1, 2, 2, 1, 2]),
        ∀ i, pr.1 ≤ i → pr.2.getD i 0 = 0 :=
  C5_numbering_monotone [1, 2, 2, 1, 2] (by decide)

/-! ### Decimal digits and anchor injectivity (C9) -/

theorem digitChar_facts (k : Nat) (h : k < 10) :
    Nat.digitChar k ≠ '.' ∧ Nat.digitChar k ≠ '_' ∧ (Nat.digitChar k).toNat = 48 + k := by
  interval_cases k <;> exact ⟨by decide, by decide, by decide⟩

theorem unDigits_natDigits (n : Nat) : unDigits (natDigits n) = n := by
  induction n using Nat.strong_induction_on with
  | _ n ih =>
    rw [natDigits_eq]
    by_cases h : n < 10
    · rw [if_pos h]
      have hc := (digitChar_facts n h).2.2
      simp only [unDigits, List.foldl_cons, List.foldl_nil]
      omega
    · rw [if_neg h]
      have h1 : n % 10 < 10 := Nat.mod_lt _ (by omega)
      have hc := (digitChar_facts _ h1).2.2
      have ih1 := ih (n / 10) (Nat.div_lt_self (by omega) (by omega))
      simp only [unDigits, List.foldl_append, List.foldl_cons, List.foldl_nil]
      rw [unDigits] at ih1
      rw [ih1, hc]
      omega

theorem natDigits_inj (a b : Nat) (h : natDigits a = natDigits b) : a = b := by
  rw [← unDigits_natDigits a, ← unDigits_natDigits b, h]

theorem natDigits_no_special (n : Nat) : ∀ c ∈ natDigits n, c ≠ '.' ∧ c ≠ '_' := by
  induction n using Nat.strong_induction_on with
  | _ n ih =>
    intro c hc
    rw [natDigits_eq] at hc
    by_cases h : n < 10
    · rw [if_pos h] at hc
      simp only [List.mem_singleton] at hc
      subst hc
      exact ⟨(digitChar_facts n h).1, (digitChar_facts n h).2.1⟩
    · rw [if_neg h] at hc
      rw [List.mem_append] at hc
      rcases hc with hc | hc
      · exact ih (n / 10) (Nat.div_lt_self (by omega) (by omega)) c hc
      · simp only [List.mem_singleton] at hc
        subst hc
        have h1 : n % 10 < 10 := Nat.mod_lt _ (by omega)
        exact ⟨(digitChar_facts _ h1).1, (digitChar_facts _ h1).2.1⟩

theorem natDigits_ne_nil (n : Nat) : natDigits n ≠ [] := by
  rw [natDigits_eq]
  by_cases h : n < 10
  · simp [h]
  · simp [h]

theorem replaceDot_of_no_dot (s : Str) (h : ∀ c ∈ s, c ≠ '.') :
    replaceDotUnderscore s = s := by
  induction s with
  | nil => rfl
  | cons c rest ih =>
    simp only [replaceDotUnderscore, List.map_cons]
    rw [if_neg (h c (List.mem_cons_self _ _))]
    have := ih (fun c hc => h c (List.mem_cons_of_mem _ hc))
    simp only [replaceDotUnderscore] at this
    rw [this]

theorem replace_joinSep : ∀ l : List Str,
    replaceDotUnderscore (joinSep '.' l) = joinSep '_' (l.map replaceDotUnderscore) := by
  intro l
  induction l with
  | nil => rfl
  | cons s rest ih =>
    cases rest with
    | nil => rfl
    | cons s2 rest2 =>
      simp only [joinSep, List.map_cons]
      simp only [List.map_cons] at ih
      rw [show replaceDotUnderscore (s ++ '.' :: joinSep '.' (s2 :: rest2))
          = replaceDotUnderscore s ++ '_' :: replaceDotUnderscore (joinSep '.' (s2 :: rest2)) by
        simp [replaceDotUnderscore]]
      rw [ih]

theorem sep_split (sep : Char) : ∀ a b ra rb : Str, sep ∉ a → sep ∉ b →
    a ++ sep :: ra = b ++ sep :: rb → a = b ∧ ra = rb := by
  intro a
  induction a with
  | nil =>
    intro b ra rb _ hb h
    cases b with
    | nil => simpa using h
    | cons y bs =>
      simp only [List.nil_append, List.cons_append, List.cons.injEq] at h
      exact absurd h.1 (by simp at hb; tauto)
  | cons x as ih =>
    intro b ra rb ha hb h
    cases b with
    | nil =>
      simp only [List.cons_append, List.nil_append, List.cons.injEq] at h
      exact absurd h.1.symm (by simp at ha; tauto)
    | cons y bs =>
      simp only [List.cons_append, List.cons.injEq] at h
      obtain ⟨hxy, h2⟩ := h
      have := ih bs ra rb (by simp at ha; tauto) (by simp at hb; tauto) h2
      exact ⟨by rw [hxy, this.1], this.2⟩

theorem joinSep_inj (sep : Char) : ∀ l1 l2 : List Str,
    (∀ s ∈ l1, s ≠ [] ∧ sep ∉ s) → (∀ s ∈ l2, s ≠ [] ∧ sep ∉ s) →
    joinSep sep l1 = joinSep sep l2 → l1 = l2 := by
  intro l1
  induction l1 with
  | nil =>
    intro l2 _ h2 h
    cases l2 with
    | nil => rfl
    | cons s rest =>
      exfalso
      cases rest with
      | nil => exact (h2 s (List.mem_cons_self _ _)).1 h.symm
      | cons t r =>
        simp only [joinSep] at h
        cases hs : s with
        | nil => rw [hs] at h; simp at h
        | cons c cs => rw [hs] at h; simp at h
  | cons s1 r1 ih =>
    intro l2 h1 h2 h
    cases l2 with
    | nil =>
      exfalso
      cases r1 with
      | nil => exact (h1 s1 (List.mem_cons_self _ _)).1 h
      | cons t r =>
        simp only [joinSep] at h
        cases hs : s1 with
        | nil => rw [hs] at h; simp at h
        | cons c cs => rw [hs] at h; simp at h
    | cons s2 r2 =>
      cases r1 with
      | nil =>
        cases r2 with
        | nil =>
          simp only [joinSep] at h
          rw [h]
        | cons t2 r2x =>
          exfalso
          simp only [joinSep] at h
          have hmem : sep ∈ s2 ++ sep :: joinSep sep (t2 :: r2x) := by simp
          rw [← h] at hmem
          exact (h1 s1 (List.mem_cons_self _ _)).2 hmem
      | cons t1 r1x =>
        cases r2 with
        | nil =>
          exfalso
          simp only [joinSep] at h
          have hmem : sep ∈ s1 ++ sep :: joinSep sep (t1 :: r1x) := by simp
          rw [h] at hmem
          exact (h2 s2 (List.mem_cons_self _ _)).2 hmem
        | cons t2 r2x =>
          simp only [joinSep] at h
          have hsp := sep_split sep s1 s2 _ _
            (h1 s1 (List.mem_cons_self _ _)).2 (h2 s2 (List.mem_cons_self _ _)).2 h
          have hrest := ih (t2 :: r2x)
            (fun s hs => h1 s (List.mem_cons_of_mem _ hs))
            (fun s hs => h2 s (List.mem_cons_of_mem _ hs)) hsp.2
          rw [hsp.1, hrest]

theorem anchorOfParts_inj : Function.Injective anchorOfParts := by
  intro p q h
  unfold anchorOfParts anchorOfNumber at h
  have h2 : replaceDotUnderscore (joinSep '.' (p.map natDigits))
      = replaceDotUnderscore (joinSep '.' (q.map natDigits)) :=
    List.append_cancel_left h
  rw [replace_joinSep, replace_joinSep] at h2
  have hmap : ∀ parts : List Nat,
      (parts.map natDigits).map replaceDotUnderscore = parts.map natDigits := by
    intro parts
    conv_rhs => rw [← List.map_id (parts.map natDigits)]
    apply List.map_congr_left
    intro s hs
    rw [List.mem_map] at hs
    obtain ⟨n, _, rfl⟩ := hs
    exact replaceDot_of_no_dot _ (fun c hc => (natDigits_no_special n c hc).1)
  rw [hmap, hmap] at h2
  have hside : ∀ parts : List Nat, ∀ s ∈ parts.map natDigits, s ≠ [] ∧ ('_' : Char) ∉ s := by
    intro parts s hs
    rw [List.mem_map] at hs
    obtain ⟨n, _, rfl⟩ := hs
    exact ⟨natDigits_ne_nil n, fun hc => (natDigits_no_special n '_' hc).2 rfl⟩
  have hlists := joinSep_inj '_' (p.map natDigits) (q.map natDigits) (hside p) (hside q) h2
  exact List.map_injective_iff.mpr (fun a b hab => natDigits_inj a b hab) hlists

/-- C9: the map from composed section numbers to anchor names
(`"sec"` + number with `.` replaced by `_`) is injective on all part
vectors, and in particular over the numbers issued for any valid
outline of depth at most 5 the derived anchor names are pairwise
distinct. -/
theorem C9_anchor_injective (ds : List Nat) (hval : validOutlineB 0 ds = true)
    (_hdepth : ∀ d ∈ ds, d ≤ 5) :
    Function.Injective anchorOfParts
    ∧ ((numbersFrom [] ds).map anchorOfParts).Nodup := by
  refine ⟨anchorOfParts_inj, ?_⟩
  rw [List.Nodup, List.pairwise_map]
  exact (numbers_pairwise ds hval).imp
    (fun h heq => lexLt_ne _ _ h (anchorOfParts_inj heq))

/-- Witness for C9 on the outline 1, 2, 2 (depths at most 5). -/
theorem C9_anchor_injective_witness :
    Function.Injective anchorOfParts
    ∧ ((numbersFrom [] [1, 2, 2]).map anchorOfParts).Nodup :=
  C9_anchor_injective [1, 2, 2] (by decide) (by decide)

/-! ### Exit-status characterization (C3) -/

theorem processSecRef_errored (m : Matcher) (reg : List (Str × Target)) (ord : List Str)
    (acr line : Str) :
    (processSecRef m reg ord acr line).2.2 = false ↔
      (acceptableResults m ord (toLowerStr acr)).length = 1 := by
  rcases hE : acceptableResults m ord (toLowerStr acr) with _ | ⟨r, _ | ⟨r2, rs⟩⟩ <;>
    simp [processSecRef, hE]

theorem processSecRefs_errored (m : Matcher) (reg : List (Str × Target)) (ord : List Str) :
    ∀ as line, (processSecRefs m reg ord as line).2.2 = false ↔
      ∀ a ∈ as, (acceptableResults m ord (toLowerStr a)).length = 1 := by
  intro as
  induction as with
  | nil => intro line; simp [processSecRefs]
  | cons a rest ih =>
    intro line
    show ((processSecRef m reg ord a line).2.2
        || (processSecRefs m reg ord rest (processSecRef m reg ord a line).1).2.2) = false ↔ _
    rw [Bool.or_eq_false_iff]
    rw [processSecRef_errored, ih]
    simp [List.forall_mem_cons]

theorem linkHeadsAll_errored (m : Matcher) (reg : List (Str × Target)) (ord : List Str) :
    ∀ ls, (linkHeadsAll m reg ord ls).2.2 = false ↔
      ∀ l ∈ ls, ∀ a ∈ findSecRefs l, (acceptableResults m ord (toLowerStr a)).length = 1 := by
  intro ls
  induction ls with
  | nil => simp [linkHeadsAll]
  | cons l rest ih =>
    show ((linkHeadsLine m reg ord l).2.2 || (linkHeadsAll m reg ord rest).2.2) = false ↔ _
    rw [Bool.or_eq_false_iff]
    unfold linkHeadsLine
    rw [processSecRefs_errored, ih]
    simp [List.forall_mem_cons]

theorem firstDup_eq_none : ∀ l seen : List Str,
    firstDup seen l = none ↔ l.Nodup ∧ ∀ a ∈ l, a ∉ seen := by
  intro l
  induction l with
  | nil => intro seen; simp [firstDup]
  | cons a rest ih =>
    intro seen
    by_cases h : a ∈ seen
    · simp [firstDup, h]
    · rw [show firstDup seen (a :: rest) = firstDup (a :: seen) rest by simp [firstDup, h]]
      rw [ih (a :: seen)]
      constructor
      · rintro ⟨hnd, hall⟩
        refine ⟨List.nodup_cons.mpr ⟨fun ha => hall a ha (List.mem_cons_self a seen), hnd⟩, ?_⟩
        intro b hb
        rcases List.mem_cons.mp hb with rfl | hb2
        · exact h
        · exact fun hbs => hall b hb2 (List.mem_cons_of_mem _ hbs)
      · rintro ⟨hnd, hall⟩
        obtain ⟨hna, hnd2⟩ := List.nodup_cons.mp hnd
        refine ⟨hnd2, fun b hb hbs => ?_⟩
        rcases List.mem_cons.mp hbs with rfl | hbs2
        · exact hna hb
        · exact hall b (List.mem_cons_of_mem _ hb) hbs2

theorem verify_eq_none (lines ordV : List Str) :
    verify lines ordV = none ↔
      (anchorNames lines).Nodup ∧ ∀ l ∈ ordV, l ∈ anchorNames lines := by
  unfold verify
  rcases hD : firstDup [] (anchorNames lines) with _ | a
  · rcases hF : (List.find? (fun l => decide (l ∉ anchorNames lines)) ordV) with _ | l
    · constructor
      · intro _
        have h1 := (firstDup_eq_none (anchorNames lines) []).mp hD
        refine ⟨h1.1, fun l hl => ?_⟩
        have h2 := List.find?_eq_none.mp hF l hl
        simpa using h2
      · intro _
        rfl
    · constructor
      · intro hcon
        cases hcon
      · rintro ⟨_, hall⟩
        exfalso
        have hmem := List.mem_of_find?_eq_some hF
        have hP := List.find?_some hF
        simp only [decide_eq_true_eq] at hP
        exact hP (hall l hmem)
  · constructor
    · intro hcon
      cases hcon
    · rintro ⟨hnd, _⟩
      exfalso
      have hnone : firstDup [] (anchorNames lines) = none :=
        (firstDup_eq_none (anchorNames lines) []).mpr ⟨hnd, by simp⟩
      rw [hD] at hnone
      cases hnone

/-- C3: the process exit status is zero iff the Resolver hit no
zero-match and no ambiguous-match condition (every section reference has
exactly one acceptable match) AND the Verifier found no duplicate anchor
and no dangling link; and the emitted document is always the full
transformed line sequence, whatever the exit status (structural warnings
from `passMkHeads` are absent from the condition: they never affect the
exit status). -/
theorem C3_exit_status (m : Matcher) (ord ordV : List Str) (lines : List Str) :
    (runPipeline m ord ordV lines).1
      = (passLinkHeads m ord (passLinkExterns (passMkHeads (passMkExterns lines)).1)).1
    ∧ ((runPipeline m ord ordV lines).2.2 = false ↔
        (∀ l ∈ passLinkExterns (passMkHeads (passMkExterns lines)).1,
          ∀ a ∈ findSecRefs l, (acceptableResults m ord (toLowerStr a)).length = 1)
        ∧ (anchorNames (runPipeline m ord ordV lines).1).Nodup
        ∧ ∀ l ∈ ordV, l ∈ anchorNames (runPipeline m ord ordV lines).1) := by
  refine ⟨rfl, ?_⟩
  show ((passLinkHeads m ord (passLinkExterns (passMkHeads (passMkExterns lines)).1)).2.2
      || (verify (passLinkHeads m ord (passLinkExterns (passMkHeads (passMkExterns lines)).1)).1 ordV).isSome)
      = false ↔ _
  rw [Bool.or_eq_false_iff]
  rw [show ∀ o : Option Str, (o.isSome = false) = (o = none) from fun o => by cases o <;> simp]
  unfold passLinkHeads
  rw [linkHeadsAll_errored, verify_eq_none]
  tauto

/-! ### Map-iteration-order (in)dependence (C6) -/

theorem acceptableResults_perm (m : Matcher) (q : Str) (ord1 ord2 : List Str)
    (hp : ord1.Perm ord2) :
    (acceptableResults m ord1 q).Perm (acceptableResults m ord2 q) :=
  (hp.map (fuzzyMatchOne m q)).filter isAcceptable

theorem processSecRef_perm (m : Matcher) (reg : List (Str × Target)) (ord1 ord2 : List Str)
    (acr line : Str) (hp : ord1.Perm ord2) :
    (processSecRef m reg ord1 acr line).1 = (processSecRef m reg ord2 acr line).1
    ∧ (processSecRef m reg ord1 acr line).2.2 = (processSecRef m reg ord2 acr line).2.2 := by
  have hperm := acceptableResults_perm m (toLowerStr acr) ord1 ord2 hp
  rcases hE1 : acceptableResults m ord1 (toLowerStr acr) with _ | ⟨r, _ | ⟨r2, rs⟩⟩
  · rw [hE1] at hperm
    have hE2 : acceptableResults m ord2 (toLowerStr acr) = [] :=
      List.Perm.eq_nil hperm.symm
    simp [processSecRef, hE1, hE2]
  · rw [hE1] at hperm
    have hE2 : acceptableResults m ord2 (toLowerStr acr) = [r] :=
      List.perm_singleton.mp hperm.symm
    simp [processSecRef, hE1, hE2]
  · have hlen := hperm.length_eq
    rw [hE1] at hlen
    rcases hE2 : acceptableResults m ord2 (toLowerStr acr) with _ | ⟨r2a, _ | ⟨r2b, rs2⟩⟩
    · rw [hE2] at hlen; simp at hlen
    · rw [hE2] at hlen; simp at hlen
    · simp [processSecRef, hE1, hE2]

theorem processSecRefs_perm (m : Matcher) (reg : List (Str × Target)) (ord1 ord2 : List Str)
    (hp : ord1.Perm ord2) : ∀ as line,
    (processSecRefs m reg ord1 as line).1 = (processSecRefs m reg ord2 as line).1
    ∧ (processSecRefs m reg ord1 as line).2.2 = (processSecRefs m reg ord2 as line).2.2 := by
  intro as
  induction as with
  | nil => intro line; exact ⟨rfl, rfl⟩
  | cons a rest ih =>
    intro line
    have h1 := processSecRef_perm m reg ord1 ord2 a line hp
    have h2 := ih (processSecRef m reg ord1 a line).1
    constructor
    · show (processSecRefs m reg ord1 rest (processSecRef m reg ord1 a line).1).1
        = (processSecRefs m reg ord2 rest (processSecRef m reg ord2 a line).1).1
      rw [← h1.1]
      exact h2.1
    · show ((processSecRef m reg ord1 a line).2.2
          || (processSecRefs m reg ord1 rest (processSecRef m reg ord1 a line).1).2.2)
        = ((processSecRef m reg ord2 a line).2.2
          || (processSecRefs m reg ord2 rest (processSecRef m reg ord2 a line).1).2.2)
      rw [← h1.1, ← h1.2]
      rw [h2.2]

theorem linkHeadsAll_perm (m : Matcher) (reg : List (Str × Target)) (ord1 ord2 : List Str)
    (hp : ord1.Perm ord2) : ∀ ls,
    (linkHeadsAll m reg ord1 ls).1 = (linkHeadsAll m reg ord2 ls).1
    ∧ (linkHeadsAll m reg ord1 ls).2.2 = (linkHeadsAll m reg ord2 ls).2.2 := by
  intro ls
  induction ls with
  | nil => exact ⟨rfl, rfl⟩
  | cons l rest ih =>
    have h1 := processSecRefs_perm m reg ord1 ord2 hp (findSecRefs l) l
    constructor
    · show (linkHeadsLine m reg ord1 l).1 :: (linkHeadsAll m reg ord1 rest).1
        = (linkHeadsLine m reg ord2 l).1 :: (linkHeadsAll m reg ord2 rest).1
      rw [show (linkHeadsLine m reg ord1 l).1 = (linkHeadsLine m reg ord2 l).1 from h1.1, ih.1]
    · show ((linkHeadsLine m reg ord1 l).2.2 || (linkHeadsAll m reg ord1 rest).2.2)
        = ((linkHeadsLine m reg ord2 l).2.2 || (linkHeadsAll m reg ord2 rest).2.2)
      rw [show (linkHeadsLine m reg ord1 l).2.2 = (linkHeadsLine m reg ord2 l).2.2 from h1.2, ih.2]

theorem verify_isSome_eq (lines ordV : List Str) :
    (verify lines ordV).isSome
      = ((firstDup [] (anchorNames lines)).isSome
        || (ordV.find? (fun l => decide (l ∉ anchorNames lines))).isSome) := by
  unfold verify
  rcases hD : firstDup [] (anchorNames lines) with _ | a
  · rcases hF : (List.find? (fun l => decide (l ∉ anchorNames lines)) ordV) with _ | l <;> rfl
  · rfl

theorem verify_isSome_perm (lines ordV1 ordV2 : List Str) (hv : ordV1.Perm ordV2) :
    (verify lines ordV1).isSome = (verify lines ordV2).isSome := by
  rw [verify_isSome_eq, verify_isSome_eq]
  have hfind : (ordV1.find? (fun l => decide (l ∉ anchorNames lines))).isSome
      = (ordV2.find? (fun l => decide (l ∉ anchorNames lines))).isSome := by
    rw [Bool.eq_iff_iff, List.find?_isSome, List.find?_isSome]
    constructor
    · rintro ⟨x, hx, hPx⟩
      exact ⟨x, hv.mem_iff.mp hx, hPx⟩
    · rintro ⟨x, hx, hPx⟩
      exact ⟨x, hv.mem_iff.mpr hx, hPx⟩
  rw [hfind]

/-- C6 amended: the emitted document lines and the exit status do not
depend on the iteration order of the registry key set or of the link
set (any permutation of either yields the same document output and the
same exit status); only diagnostic CONTENT (which dangling link is
reported first, the listing order of ambiguous candidates) depends on
the order. -/
theorem C6_output_deterministic (m : Matcher) (ord1 ord2 ordV1 ordV2 : List Str)
    (lines : List Str) (hp : ord1.Perm ord2) (hv : ordV1.Perm ordV2) :
    (runPipeline m ord1 ordV1 lines).1 = (runPipeline m ord2 ordV2 lines).1
    ∧ (runPipeline m ord1 ordV1 lines).2.2 = (runPipeline m ord2 ordV2 lines).2.2 := by
  have hlines : (passLinkHeads m ord1 (passLinkExterns (passMkHeads (passMkExterns lines)).1)).1
      = (passLinkHeads m ord2 (passLinkExterns (passMkHeads (passMkExterns lines)).1)).1 :=
    (linkHeadsAll_perm m _ ord1 ord2 hp _).1
  have herr : (passLinkHeads m ord1 (passLinkExterns (passMkHeads (passMkExterns lines)).1)).2.2
      = (passLinkHeads m ord2 (passLinkExterns (passMkHeads (passMkExterns lines)).1)).2.2 :=
    (linkHeadsAll_perm m _ ord1 ord2 hp _).2
  constructor
  · exact hlines
  · show ((passLinkHeads m ord1 (passLinkExterns (passMkHeads (passMkExterns lines)).1)).2.2
        || (verify (passLinkHeads m ord1 (passLinkExterns (passMkHeads (passMkExterns lines)).1)).1 ordV1).isSome)
      = ((passLinkHeads m ord2 (passLinkExterns (passMkHeads (passMkExterns lines)).1)).2.2
        || (verify (passLinkHeads m ord2 (passLinkExterns (passMkHeads (passMkExterns lines)).1)).1 ordV2).isSome)
    rw [herr, hlines, verify_isSome_perm _ ordV1 ordV2 hv]

/-- Witness for C6 amended: permuted key order and link order on a
small document. -/
theorem C6_output_deterministic_witness :
    (runPipeline (fun _ c => (c.length, 0, 0)) ["a".data, "b".data] ["x".data, "y".data]
        ["# 1. A".data]).1
      = (runPipeline (fun _ c => (c.length, 0, 0)) ["b".data, "a".data] ["y".data, "x".data]
        ["# 1. A".data]).1
    ∧ (runPipeline (fun _ c => (c.length, 0, 0)) ["a".data, "b".data] ["x".data, "y".data]
        ["# 1. A".data]).2.2
      = (runPipeline (fun _ c => (c.length, 0, 0)) ["b".data, "a".data] ["y".data, "x".data]
        ["# 1. A".data]).2.2 :=
  C6_output_deterministic (fun _ c => (c.length, 0, 0)) ["a".data, "b".data] ["b".data, "a".data]
    ["x".data, "y".data] ["y".data, "x".data] ["# 1. A".data]
    (List.Perm.swap _ _ _) (List.Perm.swap _ _ _)

/-- C6 counterexample: which dangling link the Verifier reports first
DOES depend on the link map's iteration order: on a document with two
dangling links, the two orders (both permutations of the link set)
yield different diagnostics. -/
theorem C6_counterexample :
    ["aa".data, "bb".data].Perm ["bb".data, "aa".data]
    ∧ ["aa".data, "bb".data] = linkNames ["x <a href=\"#aa\">".data, "y <a href=\"#bb\">".data]
    ∧ verify ["x <a href=\"#aa\">".data, "y <a href=\"#bb\">".data] ["aa".data, "bb".data]
      ≠ verify ["x <a href=\"#aa\">".data, "y <a href=\"#bb\">".data] ["bb".data, "aa".data] := by
  refine ⟨List.Perm.swap _ _ _, by decide, by decide⟩

/-! ### No-marker documents (C7) -/

theorem passMkExterns_id (lines : List Str) (h : ∀ l ∈ lines, matchExtLink l = none) :
    passMkExterns lines = lines := by
  induction lines with
  | nil => rfl
  | cons l rest ih =>
    simp only [passMkExterns, List.flatMap_cons]
    rw [h l (List.mem_cons_self _ _)]
    have := ih (fun l' hl' => h l' (List.mem_cons_of_mem _ hl'))
    simp only [passMkExterns] at this
    rw [this]
    rfl

theorem mkHeadsGo_id (lines : List Str) : ∀ st, (∀ l ∈ lines, matchHeader l = none) →
    mkHeadsGo st lines = (lines, []) := by
  induction lines with
  | nil => intro st _; rfl
  | cons l rest ih =>
    intro st h
    simp only [mkHeadsGo, mkHeadsStep]
    rw [h l (List.mem_cons_self _ _), ih st (fun l' hl' => h l' (List.mem_cons_of_mem _ hl'))]
    rfl

theorem passLinkExterns_id (lines : List Str) (h : ∀ l ∈ lines, findRefs l = []) :
    passLinkExterns lines = lines := by
  unfold passLinkExterns
  conv_rhs => rw [← List.map_id lines]
  apply List.map_congr_left
  intro l hl
  unfold linkExternLine
  rw [h l hl]
  rfl

theorem processSecRefs_empty_ord (m : Matcher) (reg : List (Str × Target)) :
    ∀ as line, (processSecRefs m reg [] as line).1 = line := by
  intro as
  induction as with
  | nil => intro line; rfl
  | cons a rest ih =>
    intro line
    show (processSecRefs m reg [] rest (processSecRef m reg [] a line).1).1 = line
    rw [ih, show (processSecRef m reg [] a line).1 = line from rfl]

theorem linkHeadsAll_empty_ord (m : Matcher) (reg : List (Str × Target)) :
    ∀ ls, (linkHeadsAll m reg [] ls).1 = ls := by
  intro ls
  induction ls with
  | nil => rfl
  | cons l rest ih =>
    show (linkHeadsLine m reg [] l).1 :: (linkHeadsAll m reg [] rest).1 = l :: rest
    rw [ih]
    unfold linkHeadsLine
    rw [processSecRefs_empty_ord]

/-- C7 amended: on a document with no heading lines, no explicit-target
definition lines AND no external-reference occurrences (`[word]`
followed by a non-colon character), the pipeline's output equals its
input.  (Without the last condition the claim fails: `passLinkExterns`
rewrites `[word]` occurrences regardless of headings and targets — see
the counterexample.)  With no headings the registry is empty, so the
key order is `[]`. -/
theorem C7_no_markers_identity (m : Matcher) (ordV : List Str) (lines : List Str)
    (h : ∀ l ∈ lines, matchHeader l = none ∧ matchExtLink l = none ∧ findRefs l = []) :
    (runPipeline m [] ordV lines).1 = lines := by
  have h1 : passMkExterns lines = lines := passMkExterns_id lines (fun l hl => (h l hl).2.1)
  have h2 : passMkHeads lines = (lines, []) := mkHeadsGo_id lines ([], 0) (fun l hl => (h l hl).1)
  have h3 : passLinkExterns lines = lines := passLinkExterns_id lines (fun l hl => (h l hl).2.2)
  show (passLinkHeads m [] (passLinkExterns (passMkHeads (passMkExterns lines)).1)).1 = lines
  rw [h1, h2]
  show (passLinkHeads m [] (passLinkExterns lines)).1 = lines
  rw [h3]
  exact linkHeadsAll_empty_ord m _ lines

/-- Witness for C7 amended on a marker-free document. -/
theorem C7_no_markers_identity_witness :
    (runPipeline (fun _ c => (c.length, 0, 0)) [] ["w".data] ["hello world".data, "".data]).1
      = ["hello world".data, "".data] :=
  C7_no_markers_identity (fun _ c => (c.length, 0, 0)) ["w".data]
    ["hello world".data, "".data] (by decide)

/-! ### Reference rewriting (C8) -/

theorem findRefs_cons_ne (c : Char) (rest : Str) (hc : c ≠ '[') :
    findRefs (c :: rest) = findRefs rest := by
  rw [findRefs_cons, if_neg hc]

theorem findRefs_append_no_bracket (a b : Str) (ha : '[' ∉ a) :
    findRefs (a ++ b) = findRefs b := by
  induction a with
  | nil => rfl
  | cons c rest ih =>
    rw [List.cons_append, findRefs_cons_ne c _ (fun hc => ha (hc ▸ List.mem_cons_self _ _)),
      ih (fun hm => ha (List.mem_cons_of_mem _ hm))]

theorem findRefs_no_bracket (s : Str) (h : '[' ∉ s) : findRefs s = [] := by
  have := findRefs_append_no_bracket s [] h
  rw [List.append_nil] at this
  rw [this]
  rfl

theorem takeWhile_word (r z : Str) (hw : ∀ ch ∈ r, isWordChar ch = true) :
    (r ++ ']' :: z).takeWhile isWordChar = r := by
  induction r with
  | nil =>
    rw [List.nil_append, List.takeWhile_cons]
    rfl
  | cons c cs ih =>
    rw [List.cons_append, List.takeWhile_cons, hw c (List.mem_cons_self _ _),
      ih (fun ch hch => hw ch (List.mem_cons_of_mem _ hch))]
    rfl

theorem isWordChar_not_special (ch : Char) (h : isWordChar ch = true) :
    ch ≠ '[' ∧ ch ≠ ']' ∧ ch ≠ ':' := by
  refine ⟨?_, ?_, ?_⟩ <;> intro heq <;> rw [heq] at h <;> exact absurd h (by decide)

theorem findRefs_marker_step (r : Str) (c : Char) (tail : Str)
    (hr : r ≠ []) (hw : ∀ ch ∈ r, isWordChar ch = true)
    (hc : c ≠ ':') :
    findRefs ('[' :: (r ++ ']' :: c :: tail)) = r :: findRefs tail := by
  rw [findRefs_cons, if_pos rfl, takeWhile_word r (c :: tail) hw]
  have hdrop : (r ++ ']' :: c :: tail).drop r.length = ']' :: c :: tail :=
    List.drop_left r (']' :: c :: tail)
  rw [hdrop]
  simp only
  rw [if_pos ⟨hr, hc⟩]
  have hdrop2 : (r ++ ']' :: c :: tail).drop (r.length + 2) = tail := by
    rw [show r ++ ']' :: c :: tail = (r ++ [']', c]) ++ tail by simp]
    exact List.drop_left' (by simp)
  rw [hdrop2]

theorem findRefs_end_marker (r : Str) (hw : ∀ ch ∈ r, isWordChar ch = true) :
    findRefs ('[' :: (r ++ [']'])) = [] := by
  rw [findRefs_cons, if_pos rfl, takeWhile_word r [] hw]
  have hdrop : (r ++ [']']).drop r.length = [']'] := List.drop_left r [']']
  rw [hdrop]
  simp only
  exact findRefs_no_bracket _ (by
    intro hm
    rcases List.mem_append.mp hm with hm | hm
    · exact (isWordChar_not_special '[' (hw '[' hm)).1 rfl
    · simp at hm)

theorem replaceAll_not_occur (pat rep : Str) (p0 : Char) (ps : Str) (hpat : pat = p0 :: ps) :
    ∀ s : Str, p0 ∉ s → replaceAll pat rep s = s := by
  intro s
  induction s with
  | nil => intro _; rfl
  | cons c rest ih =>
    intro h
    rw [replaceAll_cons, if_neg, ih (fun hm => h (List.mem_cons_of_mem _ hm))]
    rintro ⟨_, hpre⟩
    rw [hpat] at hpre
    rw [List.isPrefixOf_iff_prefix] at hpre
    obtain ⟨t, ht⟩ := hpre
    rw [List.cons_append] at ht
    have hpc : c = p0 := ((List.cons.injEq _ _ _ _).mp ht.symm).1
    exact h (by rw [← hpc]; exact List.mem_cons_self _ _)

theorem replaceAll_append_no_occur (pat rep : Str) (p0 : Char) (ps : Str) (hpat : pat = p0 :: ps) :
    ∀ a b : Str, p0 ∉ a → replaceAll pat rep (a ++ b) = a ++ replaceAll pat rep b := by
  intro a
  induction a with
  | nil => intro b _; rfl
  | cons c rest ih =>
    intro b h
    rw [List.cons_append, replaceAll_cons, if_neg, List.cons_append,
      ih b (fun hm => h (List.mem_cons_of_mem _ hm))]
    rintro ⟨_, hpre⟩
    rw [hpat] at hpre
    rw [List.isPrefixOf_iff_prefix] at hpre
    obtain ⟨t, ht⟩ := hpre
    rw [List.cons_append] at ht
    have hpc : c = p0 := ((List.cons.injEq _ _ _ _).mp ht.symm).1
    exact h (by rw [← hpc]; exact List.mem_cons_self _ _)

theorem replaceAll_at_match (pat rep tail : Str) (hpat : pat ≠ []) :
    replaceAll pat rep (pat ++ tail) = rep ++ replaceAll pat rep tail := by
  cases hp : pat with
  | nil => exact absurd hp hpat
  | cons p0 ps =>
    rw [← hp]
    rcases hq : pat ++ tail with _ | ⟨c, rest⟩
    · rw [hp] at hq; simp at hq
    · rw [replaceAll_cons, if_pos]
      · congr 1
        rw [← hq]
        have : (pat ++ tail).drop pat.length = tail := List.drop_left pat tail
        rw [this]
      · constructor
        · exact hpat
        · rw [List.isPrefixOf_iff_prefix, ← hq]
          exact List.prefix_append pat tail

theorem replaceAll_cons_ne (pat rep : Str) (p0 : Char) (ps : Str) (hpat : pat = p0 :: ps)
    (c : Char) (s : Str) (hc : p0 ≠ c) :
    replaceAll pat rep (c :: s) = c :: replaceAll pat rep s := by
  rw [replaceAll_cons, if_neg]
  rintro ⟨_, hpre⟩
  rw [hpat, List.isPrefixOf_iff_prefix] at hpre
  obtain ⟨t, ht⟩ := hpre
  rw [List.cons_append] at ht
  exact hc ((List.cons.injEq _ _ _ _).mp ht).1

theorem marker_pat_no_match (x y t : Str)
    (hwx : ∀ ch ∈ x, isWordChar ch = true) (hwy : ∀ ch ∈ y, isWordChar ch = true)
    (hne : x ≠ y) :
    ¬ (refPatStr x ≠ [] ∧ (refPatStr x).isPrefixOf ('[' :: (y ++ ']' :: t)) = true) := by
  rintro ⟨_, hpre⟩
  rw [List.isPrefixOf_iff_prefix] at hpre
  obtain ⟨v, hv⟩ := hpre
  have h2 : x ++ ']' :: v = y ++ ']' :: t := by
    simp only [refPatStr] at hv
    simpa [List.cons_append, List.append_assoc] using hv
  have hxm : (']' : Char) ∉ x := fun hm => (isWordChar_not_special ']' (hwx ']' hm)).2.1 rfl
  have hym : (']' : Char) ∉ y := fun hm => (isWordChar_not_special ']' (hwy ']' hm)).2.1 rfl
  exact hne (sep_split ']' x y v t hxm hym h2).1

/-- C8 amended: the Reference Rewriting stage scans the line for
leftmost, non-overlapping matches of `\[(\w+)\][^:]` (the consumed
trailing character can hide the opening bracket of an adjacent next
occurrence), then — for each identifier found — replaces EVERY
occurrence of the literal `[identifier]` on the line by a hyperlink
whose visible text is the identifier and whose destination is
`#identifier`, unconditionally and without consulting the Target
Registry (`linkExternLine` takes none).  Conjuncts: (i) a found
occurrence is rewritten; (ii) when the same identifier was found
earlier on the line, an occurrence at the very end of the line is ALSO
rewritten; (iii) an occurrence whose opening bracket was consumed as
the trailing character of the preceding match is left unrewritten even
though a non-colon character follows it.  A sole occurrence at the
very end of a line is never found, hence never rewritten — see the
counterexample. -/
theorem C8_reference_rewrite :
    (∀ pre post r : Str, ∀ c : Char,
      r ≠ [] → (∀ ch ∈ r, isWordChar ch = true) →
      '[' ∉ pre → '[' ∉ post → c ≠ ':' → c ≠ '[' →
      linkExternLine (pre ++ '[' :: (r ++ ']' :: c :: post))
        = pre ++ refLinkStr r ++ c :: post)
    ∧ (∀ pre mid r : Str, ∀ c : Char,
      r ≠ [] → (∀ ch ∈ r, isWordChar ch = true) →
      '[' ∉ pre → '[' ∉ mid → c ≠ ':' → c ≠ '[' →
      linkExternLine (pre ++ '[' :: (r ++ ']' :: c :: (mid ++ '[' :: (r ++ [']']))))
        = pre ++ refLinkStr r ++ c :: (mid ++ refLinkStr r))
    ∧ (∀ pre post x y : Str, ∀ c : Char,
      x ≠ [] → (∀ ch ∈ x, isWordChar ch = true) →
      y ≠ [] → (∀ ch ∈ y, isWordChar ch = true) → x ≠ y →
      '[' ∉ pre → '[' ∉ post → c ≠ ':' → c ≠ '[' →
      linkExternLine (pre ++ '[' :: (x ++ ']' :: '[' :: (y ++ ']' :: c :: post)))
        = pre ++ refLinkStr x ++ '[' :: (y ++ ']' :: c :: post)) := by
  refine ⟨?_, ?_, ?_⟩
  · intro pre post r c hr hw hpre hpost hc hcb
    have hfind : findRefs (pre ++ '[' :: (r ++ ']' :: c :: post)) = [r] := by
      rw [findRefs_append_no_bracket pre _ hpre, findRefs_marker_step r c post hr hw hc,
        findRefs_no_bracket post hpost]
    unfold linkExternLine
    rw [hfind]
    show replaceAll (refPatStr r) (refLinkStr r) (pre ++ '[' :: (r ++ ']' :: c :: post))
      = pre ++ refLinkStr r ++ c :: post
    rw [replaceAll_append_no_occur (refPatStr r) (refLinkStr r) '[' (r ++ [']']) rfl pre _ hpre,
      show ('[' :: (r ++ ']' :: c :: post)) = refPatStr r ++ c :: post by simp [refPatStr],
      replaceAll_at_match _ _ _ (by simp [refPatStr]),
      replaceAll_not_occur (refPatStr r) (refLinkStr r) '[' (r ++ [']']) rfl (c :: post)
        (by
          intro hm
          rcases List.mem_cons.mp hm with heq | hm2
          · exact hcb heq.symm
          · exact hpost hm2),
      List.append_assoc]
  · intro pre mid r c hr hw hpre hmid hc hcb
    have hfind : findRefs (pre ++ '[' :: (r ++ ']' :: c :: (mid ++ '[' :: (r ++ [']'])))) = [r] := by
      rw [findRefs_append_no_bracket pre _ hpre,
        findRefs_marker_step r c _ hr hw hc,
        findRefs_append_no_bracket mid _ hmid,
        findRefs_end_marker r hw]
    unfold linkExternLine
    rw [hfind]
    show replaceAll (refPatStr r) (refLinkStr r)
        (pre ++ '[' :: (r ++ ']' :: c :: (mid ++ '[' :: (r ++ [']']))))
      = pre ++ refLinkStr r ++ c :: (mid ++ refLinkStr r)
    rw [replaceAll_append_no_occur (refPatStr r) (refLinkStr r) '[' (r ++ [']']) rfl pre _ hpre,
      show ('[' :: (r ++ ']' :: c :: (mid ++ '[' :: (r ++ [']']))))
        = refPatStr r ++ c :: (mid ++ '[' :: (r ++ [']'])) by simp [refPatStr],
      replaceAll_at_match _ _ _ (by simp [refPatStr]),
      replaceAll_cons_ne (refPatStr r) (refLinkStr r) '[' (r ++ [']']) rfl c _
        (fun h => hcb h.symm),
      replaceAll_append_no_occur (refPatStr r) (refLinkStr r) '[' (r ++ [']']) rfl mid _ hmid,
      show ('[' :: (r ++ [']']) : Str) = refPatStr r ++ [] by simp [refPatStr],
      replaceAll_at_match _ _ _ (by simp [refPatStr]),
      replaceAll_nil]
    simp [List.append_assoc]
  · intro pre post x y c hx hwx hy hwy hne hpre hpost hc hcb
    have hnbtail : '[' ∉ y ++ ']' :: c :: post := by
      intro hm
      rcases List.mem_append.mp hm with hm | hm
      · exact (isWordChar_not_special '[' (hwy '[' hm)).1 rfl
      · rcases List.mem_cons.mp hm with heq | hm2
        · exact absurd heq (by decide)
        · rcases List.mem_cons.mp hm2 with heq | hm3
          · exact hcb heq.symm
          · exact hpost hm3
    have hfind : findRefs (pre ++ '[' :: (x ++ ']' :: '[' :: (y ++ ']' :: c :: post))) = [x] := by
      rw [findRefs_append_no_bracket pre _ hpre,
        findRefs_marker_step x '[' _ hx hwx (by decide),
        findRefs_no_bracket _ hnbtail]
    unfold linkExternLine
    rw [hfind]
    show replaceAll (refPatStr x) (refLinkStr x)
        (pre ++ '[' :: (x ++ ']' :: '[' :: (y ++ ']' :: c :: post)))
      = pre ++ refLinkStr x ++ '[' :: (y ++ ']' :: c :: post)
    rw [replaceAll_append_no_occur (refPatStr x) (refLinkStr x) '[' (x ++ [']']) rfl pre _ hpre,
      show ('[' :: (x ++ ']' :: '[' :: (y ++ ']' :: c :: post)))
        = refPatStr x ++ '[' :: (y ++ ']' :: c :: post) by simp [refPatStr],
      replaceAll_at_match _ _ _ (by simp [refPatStr]),
      replaceAll_cons, if_neg (marker_pat_no_match x y (c :: post) hwx hwy hne),
      replaceAll_not_occur (refPatStr x) (refLinkStr x) '[' (x ++ [']']) rfl _ hnbtail,
      List.append_assoc]

/-- Witness for C8 amended at concrete lines: `see [foo] ok` (found
occurrence rewritten), `see [x] and [x]` (the end-of-line `[x]` is
also rewritten), and `see [x][y] w` (`[y]` is left unrewritten). -/
theorem C8_reference_rewrite_witness :
    linkExternLine ("see ".data ++ '[' :: ("foo".data ++ ']' :: ' ' :: "ok".data))
      = "see ".data ++ refLinkStr "foo".data ++ ' ' :: "ok".data
    ∧ linkExternLine ("see ".data ++ '[' :: ("x".data ++ ']' :: ' ' :: ("and ".data ++ '[' :: ("x".data ++ [']']))))
      = "see ".data ++ refLinkStr "x".data ++ ' ' :: ("and ".data ++ refLinkStr "x".data)
    ∧ linkExternLine ("see ".data ++ '[' :: ("x".data ++ ']' :: '[' :: ("y".data ++ ']' :: ' ' :: "w".data)))
      = "see ".data ++ refLinkStr "x".data ++ '[' :: ("y".data ++ ']' :: ' ' :: "w".data) :=
  ⟨C8_reference_rewrite.1 "see ".data "ok".data "foo".data ' '
      (by decide) (by decide) (by decide) (by decide) (by decide) (by decide),
   C8_reference_rewrite.2.1 "see ".data "and ".data "x".data ' '
      (by decide) (by decide) (by decide) (by decide) (by decide) (by decide),
   C8_reference_rewrite.2.2 "see ".data "w".data "x".data "y".data ' '
      (by decide) (by decide) (by decide) (by decide) (by decide) (by decide) (by decide)
      (by decide) (by decide)⟩

/-- C4 amended: a heading whose depth exceeds the previous depth by more
than one produces the structural warning, and the composed section
number includes an explicit `0` part for every skipped level
(`1.0.1`-style), followed by `1` for the heading itself — the gap is NOT
collapsed. -/
theorem C4_gap_warning_and_zero_parts (v : List Nat) (p level : Nat) (line title : Str)
    (hm : matchHeader line = some (level, title))
    (hgap : p + 1 < level)
    (hlen : p ≤ v.length)
    (hz : ∀ i, p ≤ i → v.getD i 0 = 0) :
    (mkHeadsStep (v, p) line).2.2 = [gapWarn title]
    ∧ sectionNumberStr (updateCounters v level) level
      = joinSep '.' ((v.take p).map natDigits
          ++ List.replicate (level - 1 - p) "0".data ++ ["1".data]) := by
  constructor
  · simp [mkHeadsStep, hm, hgap]
  · unfold sectionNumberStr
    have h1 : 1 ≤ level := by omega
    rw [updateCounters_take v level h1, take_gap_eq v p level hlen hgap hz]
    have hzero : v.getD (level - 1) 0 = 0 := hz (level - 1) (by omega)
    rw [hzero]
    congr 1
    rw [List.map_append, List.map_append, List.map_replicate]
    have h0 : natDigits 0 = "0".data := rfl
    have h1 : natDigits (0 + 1) = "1".data := rfl
    simp [h0, h1, List.append_assoc]

/-- Witness for C4 amended: after `# A` (state `([1], 1)`), the heading
`### B` yields the warning and number parts `1`, `0`, `1`. -/
theorem C4_gap_warning_and_zero_parts_witness :
    (mkHeadsStep ([1], 1) "### B".data).2.2 = [gapWarn "B".data]
    ∧ sectionNumberStr (updateCounters [1] 3) 3
      = joinSep '.' (([1].take 1).map natDigits
          ++ List.replicate (3 - 1 - 1) "0".data ++ ["1".data]) :=
  C4_gap_warning_and_zero_parts [1] 1 3 "### B".data "B".data (by decide) (by omega)
    (by decide)
    (by
      intro i hi
      cases i with
      | zero => exact absurd hi (by omega)
      | succ j => rfl)

/-- C4 counterexample: on `# A` followed directly by `### B` (a depth gap
from 1 to 3), the engine emits the structural warning but composes the
number `1.0.1` — the skipped level DOES contribute a `0` part to the
composed string, contrary to the claim's "no zero part". -/
theorem C4_counterexample :
    (passMkHeads ["# A".data, "### B".data]).1
      = ["<a name=\"sec1\"></a>".data, "# 1. A".data,
         "<a name=\"sec1_0_1\"></a>".data, "### 1.0.1. B".data]
    ∧ (passMkHeads ["# A".data, "### B".data]).2 = [gapWarn "B".data] := by
  constructor <;> rfl

/-- C7 counterexample: a document with no heading lines and no
explicit-target definition lines whose output differs from its input —
the reference-rewriting stage still rewrites `[foo]`. -/
theorem C7_counterexample :
    (matchHeader "a [foo] b".data = none ∧ matchExtLink "a [foo] b".data = none)
    ∧ (runPipeline (fun _ c => (c.length, 0, 0)) [] ["foo".data] ["a [foo] b".data]).1
        ≠ ["a [foo] b".data] := by
  refine ⟨⟨rfl, rfl⟩, ?_⟩
  decide

/-- C8 counterexample: an occurrence of `[foo]` at the very end of a line
is NOT rewritten (the pattern `\[(\w+)\][^:]` requires a following
non-colon character), contrary to the claim. -/
theorem C8_counterexample :
    passLinkExterns ["see [foo]".data] = ["see [foo]".data]
    ∧ passLinkExterns ["see [foo]".data] ≠ ["see [<a href=\"#foo\">foo</a>]".data] := by
  constructor
  · rfl
  · decide

end Markproc
